import Mathlib

/-!
Verification of the static-suite data server core against its specification.

The development shallowly embeds the store (src/lib/store/store.js), the cache
(src/unnamed/part_000), and the module handler / include parser
(src/unnamed/part_001). JavaScript strings are modelled as Lean strings,
JavaScript objects used as string-keyed records are modelled as association
lists, and the file system / query runner / mounting-strategy modules that are
external to the repository are taken as parameters. Helpers that live in the
repository but outside the provided sources (getVariantName, getObjectValue,
aliasWithoutTypeIncludeParser) are modelled from the specification; their doc
comments say so explicitly.
-/

/-- Model of the JavaScript `String.prototype.split` with a one-character
separator, on character lists. The result is always nonempty; an empty input
yields `[[]]`, matching `"".split(sep)` returning `[""]`. -/
def jsSplitChars (sep : Char) : List Char → List (List Char)
  | [] => [[]]
  | c :: rest =>
    let r := jsSplitChars sep rest
    if c == sep then [] :: r
    else
      match r with
      | [] => [[c]]
      | h :: t => (c :: h) :: t

/-- Model of the JavaScript `s.split(sep)` for a one-character separator. -/
def jsSplit (sep : Char) (s : String) : List String :=
  (jsSplitChars sep s.data).map (fun cs => ⟨cs⟩)

/-- Model of `path.join(dataDir, file)` for the plain relative paths the store
uses (no `.` or `..` normalization is exercised by the embedded code paths). -/
def jsJoin (dataDir file : String) : String :=
  if dataDir == "" then file else dataDir ++ "/" ++ file

/-- Model of `String.prototype.toLowerCase` for the ASCII keys the include
parser dispatches on. -/
def jsToLower (s : String) : String := ⟨s.data.map Char.toLower⟩

/-- Model of `String.prototype.endsWith`. -/
def jsEndsWith (s suffix : String) : Bool :=
  let cs := s.data
  let sf := suffix.data
  decide (sf.length ≤ cs.length) && cs.drop (cs.length - sf.length) == sf

/-- Log levels used by the logger calls reached from the embedded code. -/
inductive LogItemLevel where
  | warn
  | error
  | debug
deriving DecidableEq, Repr

/-- Documents are the parsed JSON contents of one ingested file: the
`__FILENAME__` field written by `addFileToJsonItems`, plus the remaining JSON
payload, which the store treats as opaque and which we model as a string. -/
structure Doc where
  filename : String
  content : String
deriving DecidableEq, Repr

/-- Per-level `_json` index: `main` plus the `variants` object, the latter a
string-keyed record of document sequences. -/
structure Index where
  main : List Doc
  variants : List (String × List Doc)
deriving DecidableEq, Repr

mutual
/-- Tree node of the store: a document leaf (parsed JSON file), a raw text
leaf (file whose contents did not parse as JSON), or a directory carrying its
`_json` index and its named children. The index lives in a dedicated field, so
states where the reserved `_json` property itself has been deleted or
shadowed are outside this representation; the theorems about `remove` are
therefore stated for paths that pass `meetsPathRequirements`. -/
inductive Node where
  | doc (d : Doc)
  | raw (s : String)
  | dir (idx : Index) (children : Children)
deriving Repr

/-- Children of a directory node, as an insertion-ordered association list. -/
inductive Children where
  | nil
  | cons (key : String) (n : Node) (rest : Children)
deriving Repr
end

/-- Looks up a child by name (first match). -/
def childGet : Children → String → Option Node
  | .nil, _ => none
  | .cons k n rest, key => if k == key then some n else childGet rest key

/-- Sets a child: replaces the first binding of the key, or appends a new one,
matching property assignment on a JavaScript object. -/
def childSet : Children → String → Node → Children
  | .nil, key, v => .cons key v .nil
  | .cons k n rest, key, v =>
    if k == key then .cons k v rest else .cons k n (childSet rest key v)

/-- Deletes a child, matching the JavaScript `delete` operator. -/
def childErase : Children → String → Children
  | .nil, _ => .nil
  | .cons k n rest, key =>
    if k == key then childErase rest key else .cons k n (childErase rest key)

/-- Keys of a children list, in order. -/
def childKeys : Children → List String
  | .nil => []
  | .cons k _ rest => k :: childKeys rest

/-- Looks up a variant group in the `variants` record. -/
def variantsGet (vs : List (String × List Doc)) (key : String) : Option (List Doc) :=
  match vs with
  | [] => none
  | (k, ds) :: rest => if k == key then some ds else variantsGet rest key

/-- Sets a variant group, replacing the first binding or appending. -/
def variantsSet (vs : List (String × List Doc)) (key : String) (ds : List Doc) :
    List (String × List Doc) :=
  match vs with
  | [] => [(key, ds)]
  | (k, old) :: rest =>
    if k == key then (k, ds) :: rest else (k, old) :: variantsSet rest key ds

/-- Deletes a variant group, matching the JavaScript `delete` operator. -/
def variantsErase (vs : List (String × List Doc)) (key : String) :
    List (String × List Doc) :=
  match vs with
  | [] => []
  | (k, ds) :: rest =>
    if k == key then variantsErase rest key else (k, ds) :: variantsErase rest key

/-- Characters of the variant key: everything after the first `--` separator. -/
def afterVariantSep : List Char → Option (List Char)
  | [] => none
  | '-' :: '-' :: rest => some rest
  | _ :: rest => afterVariantSep rest

/-- Drops the extension (everything from the last dot on) from a file name. -/
def stripExtension (cs : List Char) : List Char :=
  if cs.contains '.' then ((cs.reverse.dropWhile (fun c => c != '.')).drop 1).reverse
  else cs

/-- Modelled from the spec: `getVariantName` (src/lib/utils/fsUtils, not under
src/). Spec section 3 and 6: the variant naming convention is
`base--variant.ext`; a file name without the `--` separator is the main
representative and has no variant. We take the variant key of the final path
segment, between the first `--` separator and the extension. An empty computed
key is treated as no variant, since a falsy variant name takes the
non-variant branch in the source. -/
def getVariantName (file : String) : Option String :=
  let base := (jsSplit '/' file).getLastD ""
  match afterVariantSep base.data with
  | none => none
  | some rest =>
    let v := stripExtension rest
    if v.isEmpty then none else some ⟨v⟩

/-- Mirrors `addFileToJsonItems` (store.js lines 14 to 36) on the index record
of one tree level: the document is appended to `variants[variantName]` when
the file name carries a variant, and to `main` otherwise. The source also
writes `__FILENAME__` into the JSON object; in this embedding the `Doc` passed
in already carries that field. -/
def addFileToJsonItems (idx : Index) (file : String) (d : Doc) : Index :=
  match getVariantName file with
  | some v =>
    match variantsGet idx.variants v with
    | some ds => { idx with variants := variantsSet idx.variants v (ds ++ [d]) }
    | none => { idx with variants := idx.variants ++ [(v, [d])] }
  | none => { idx with main := idx.main ++ [d] }

/-- Removes by `findIndex` plus `splice(fileIndex, 1)`: when no element
matches, `findIndex` yields `-1` and `splice(-1, 1)` removes the last element
of a nonempty array (and nothing from an empty one). -/
def spliceFindRemove (ds : List Doc) (file : String) : List Doc :=
  match ds.findIdx? (fun d => d.filename == file) with
  | some i => ds.eraseIdx i
  | none => ds.dropLast

/-- Mirrors `removeFileFromJsonItems` (store.js lines 38 to 64) on the index
record of one tree level. A variant group emptied by the splice is deleted.
The guards mirror the optional chaining: an existing variant group (even an
empty array, which is truthy) is spliced; `main` always exists on a level. -/
def removeFileFromJsonItems (idx : Index) (file : String) : Index :=
  match getVariantName file with
  | some v =>
    match variantsGet idx.variants v with
    | some ds =>
      let ds' := spliceFindRemove ds file
      if ds'.isEmpty then { idx with variants := variantsErase idx.variants v }
      else { idx with variants := variantsSet idx.variants v ds' }
    | none => idx
  | none => { idx with main := spliceFindRemove idx.main file }

/-- Mirrors `meetsPathRequirements` (store.js lines 67 to 78): the path must
not contain the reserved `_json` segment. -/
def meetsPathRequirements (pathParts : List String) : Bool :=
  !(pathParts.contains "_json")

/-- Log entries emitted by `meetsPathRequirements`: a warning (never an error)
when the path contains the reserved segment. -/
def meetsPathRequirementsLog (pathParts : List String) : List (LogItemLevel × String) :=
  if pathParts.contains "_json" then
    [(.warn, "Skipping file \"" ++ String.intercalate "/" pathParts ++
      "\" since it contains \"_json\", a reserved name. Please, rename it.")]
  else []

/-- Mirrors `storeDataSkeleton` (store.js lines 84 to 89): an empty directory
level whose index has `main = []` and `variants = {}`. -/
def storeDataSkeleton : Node := .dir ⟨[], []⟩ .nil

/-- Store state: the live tree (`store.data`) and the staging tree
(`store.stage`). The `updated` date is not modelled. -/
structure Store where
  data : Node
  stage : Node
deriving Repr

/-- Initial store: both trees are deep clones of the skeleton. -/
def emptyStore : Store := ⟨storeDataSkeleton, storeDataSkeleton⟩

/-- Contents of one file as delivered by the external `getFileContents`
(src/lib/utils/fsUtils, an external pull contract per spec section 6): the raw
text plus the parsed JSON payload, `none` when the text is not valid JSON. -/
structure FileContents where
  raw : String
  json : Option String
deriving DecidableEq, Repr

/-- Cache of src/unnamed/part_000: bin and key to value, no expiry. The store
only ever uses the `file` bin with `FileContents` values, which is the value
type we give entries here. -/
abbrev CacheData := List (String × String × FileContents)

/-- Mirrors `cache.get(bin, key)`. -/
def cacheGet (c : CacheData) (bin key : String) : Option FileContents :=
  match c with
  | [] => none
  | (b, k, v) :: rest => if b == bin && k == key then some v else cacheGet rest bin key

/-- Mirrors `cache.set(bin, key, value)`. -/
def cacheSet (c : CacheData) (bin key : String) (v : FileContents) : CacheData :=
  match c with
  | [] => [(bin, key, v)]
  | (b, k, old) :: rest =>
    if b == bin && k == key then (b, k, v) :: rest else (b, k, old) :: cacheSet rest bin key v

/-- Options object of `store.add`. -/
structure AddOptions where
  useStage : Bool
  useCache : Bool
deriving DecidableEq, Repr

/-- File contents used by an `add` call: the cached entry when `useCache` is
set and an entry exists, otherwise a fresh read (which the call also caches). -/
def addEffectiveContents (fs : String → FileContents) (c : CacheData)
    (filePath : String) (useCache : Bool) : FileContents :=
  match cacheGet c "file" filePath, useCache with
  | some v, true => v
  | _, _ => fs filePath

/-- Cache state after the read step of an `add` call. -/
def addCacheAfter (fs : String → FileContents) (c : CacheData)
    (filePath : String) (useCache : Bool) : CacheData :=
  if useCache && (cacheGet c "file" filePath).isSome then c
  else cacheSet c "file" filePath (fs filePath)

/-- Value stored at the file leaf: `jsonFileContents || rawFileContents`. -/
def leafValue (jsonDoc : Option Doc) (rawContents : String) : Node :=
  match jsonDoc with
  | some d => .doc d
  | none => .raw rawContents

/-- Mirrors an `addFileToJsonItems(leaf, file, jsonFileContents)` call on a
tree node: a falsy `jsonFileContents` is a no-op; on a directory the index is
updated; on any other value the source dereferences `leaf[JSON_ITEMS]` as
`undefined` and throws, which we surface as an error string. -/
def addFileToJsonItemsNode (leaf : Node) (file : String) (jsonDoc : Option Doc) :
    Node × Option String :=
  match jsonDoc with
  | none => (leaf, none)
  | some d =>
    match leaf with
    | .dir idx ch => (.dir (addFileToJsonItems idx file d) ch, none)
    | other => (other, some "TypeError: cannot read properties of undefined")

/-- Truthiness of a tree value under JavaScript coercion: objects are truthy,
a string is truthy when nonempty. -/
def nodeTruthy : Node → Bool
  | .raw s => s != ""
  | _ => true

/-- Mirrors the `pathParts.forEach` walk of `store.add` (store.js lines 211 to
237), excluding the final push into the root index, which the caller performs.
For each intermediate part the walk materializes a skeleton when the slot is
falsy, pushes the document into that level's index, and steps in; the last
part stores the document or raw contents under the file name. Stepping into a
truthy non-directory value with parsed JSON contents throws in the source (the
index push dereferences `undefined`); with unparsed contents the source would
continue property-walking inside a string or inside another document's JSON,
which this representation does not carry, so the walk reports an error there
instead. No claim exercises that corner. -/
def addWalk (file : String) (jsonDoc : Option Doc) (rawContents : String) :
    List String → Node → Node × Option String
  | [], leaf => (leaf, none)
  | [last], leaf =>
    match leaf with
    | .dir idx ch => (.dir idx (childSet ch last (leafValue jsonDoc rawContents)), none)
    | other => (other, none)
  | part :: rest, leaf =>
    match leaf with
    | .dir idx ch =>
      let child1 :=
        match childGet ch part with
        | none => storeDataSkeleton
        | some (.raw s) => if s == "" then storeDataSkeleton else .raw s
        | some c => c
      match addFileToJsonItemsNode child1 file jsonDoc with
      | (child2, some e) => (.dir idx (childSet ch part child2), some e)
      | (child2, none) =>
        match child2 with
        | .dir i2 c2 =>
          let (child3, err) := addWalk file jsonDoc rawContents rest (.dir i2 c2)
          (.dir idx (childSet ch part child3), err)
        | nonDir => (.dir idx (childSet ch part nonDir), some "unmodelled: walk entered a non-directory value")
    | other => (other, some "unmodelled: walk entered a non-directory value")

/-- Mirrors `store.add` (store.js lines 174 to 251) with no post-processor
configured (`config.postProcessor` unset, so both hooks are skipped). Returns
the new store, the new cache, and an error when the source would throw; on an
error the mutations already performed persist, as they do in the source. -/
def storeAddCore (fs : String → FileContents) (st : Store) (c : CacheData)
    (dataDir file : String) (opts : AddOptions) : Store × CacheData × Option String :=
  let filePath := jsJoin dataDir file
  let fc := addEffectiveContents fs c filePath opts.useCache
  let c1 := addCacheAfter fs c filePath opts.useCache
  let jsonDoc := fc.json.map (fun payload => Doc.mk file payload)
  let root := if opts.useStage then st.stage else st.data
  let walked := addWalk file jsonDoc fc.raw (jsSplit '/' file) root
  let pushed :=
    match walked.2 with
    | none => addFileToJsonItemsNode walked.1 file jsonDoc
    | some e => (walked.1, some e)
  let st' := if opts.useStage then { st with stage := pushed.1 } else { st with data := pushed.1 }
  (st', c1, pushed.2)

def storeAdd (fs : String → FileContents) (st : Store) (c : CacheData)
    (dataDir file : String) (opts : AddOptions) : Store × CacheData × Option String :=
  if file == "" then (st, c, none)
  else
    let pathParts := jsSplit '/' file
    if !meetsPathRequirements pathParts then (st, c, none)
    else storeAddCore fs st c dataDir file opts

/-- Mirrors a `removeFileFromJsonItems(leaf, file)` call on a tree value: on a
directory the index record is updated; on anything else the optional chaining
makes the call a no-op. -/
def removeFileFromJsonItemsNode (leaf : Node) (file : String) : Node :=
  match leaf with
  | .dir idx ch => .dir (removeFileFromJsonItems idx file) ch
  | other => other

/-- Mirrors the `pathParts.forEach` walk of `store.remove` (store.js lines 266
to 282), excluding the final splice on the root index, which the caller
performs. On the last part the current leaf's binding for that name is
deleted; on an intermediate part the index of `leaf[part]` is spliced and the
cursor steps in only when `leaf[part]` is truthy, so on a missing or falsy
slot the remaining parts keep operating on the current leaf. -/
def removeWalk (file : String) : List String → Node → Node
  | [], leaf => leaf
  | [last], leaf =>
    match leaf with
    | .dir idx ch => .dir idx (childErase ch last)
    | other => other
  | part :: rest, leaf =>
    match leaf with
    | .dir idx ch =>
      match childGet ch part with
      | some c =>
        let c' := removeFileFromJsonItemsNode c file
        if nodeTruthy c' then .dir idx (childSet ch part (removeWalk file rest c'))
        else removeWalk file rest (.dir idx (childSet ch part c'))
      | none => removeWalk file rest (.dir idx ch)
    | other => removeWalk file rest other

/-- Mirrors `store.remove` (store.js lines 262 to 291) with no post-processor
configured: the walk above, then the `removeFileFromJsonItems(store.data,
file)` call made on the root at the file-name iteration; it commutes with the
walk, which never touches the root's own index. -/
def storeRemove (st : Store) (file : String) : Store :=
  let pathParts := jsSplit '/' file
  let root1 := removeWalk file pathParts st.data
  { st with data := removeFileFromJsonItemsNode root1 file }

/-- Mirrors `store.update` (store.js lines 304 to 308): remove then add on the
live tree, with default options. -/
def storeUpdate (fs : String → FileContents) (st : Store) (c : CacheData)
    (dataDir file : String) : Store × CacheData × Option String :=
  storeAdd fs (storeRemove st file) c dataDir file ⟨false, false⟩

/-- Result of a `store.get` lookup: a tree value, an index record or one of
its two fields (reached through the reserved `_json` segment), or absence. -/
inductive GetResult where
  | node (n : Node)
  | index (idx : Index)
  | mainList (ds : List Doc)
  | variantsMap (vs : List (String × List Doc))
  | variantList (ds : List Doc)
  | absent
deriving Repr

/-- One step of the `store.get` reduce: `prev && prev[curr]`. Absence
propagates; a directory resolves the reserved `_json` name to its index and
other names to children; an index resolves `main` and `variants`; character
indexing of raw strings and field access inside a document's JSON payload are
not represented (both yield values no claim consumes). -/
def getStep : GetResult → String → GetResult
  | .node (.dir idx ch), seg =>
    if seg == "_json" then .index idx
    else
      match childGet ch seg with
      | some n => .node n
      | none => .absent
  | .node _, _ => .absent
  | .index idx, seg =>
    if seg == "main" then .mainList idx.main
    else if seg == "variants" then .variantsMap idx.variants
    else .absent
  | .variantsMap vs, seg =>
    match variantsGet vs seg with
    | some ds => .variantList ds
    | none => .absent
  | .mainList _, _ => .absent
  | .variantList _, _ => .absent
  | .absent, _ => .absent

/-- Mirrors `store.get` (store.js lines 317 to 320). -/
def storeGet (st : Store) (file : String) : GetResult :=
  (jsSplit '/' file).foldl getStep (.node st.data)

/-- Mirrors `store.promoteStage` (store.js lines 327 to 331): the staging tree
becomes the live tree and staging is reset to a fresh skeleton. -/
def promoteStage (st : Store) : Store :=
  { data := st.stage, stage := storeDataSkeleton }

/-- JSON-like values, used for the documents the include parser rewrites. The
include parser only ever navigates object fields by key along explicit paths,
so functions over `JVal` recurse on paths, not on value depth. -/
inductive JVal where
  | null
  | str (s : String)
  | num (n : Int)
  | arr (xs : List JVal)
  | obj (fields : List (String × JVal))

/-- Reads one field of an object value; anything else has no fields. -/
def jObjGet : JVal → String → Option JVal
  | .obj fields, key =>
    match fields.find? (fun f => f.1 == key) with
    | some f => some f.2
    | none => none
  | _, _ => none

/-- Sets one field of an object field list, replacing the first binding or
appending, matching property assignment on a JavaScript object. -/
def jFieldsSet (fields : List (String × JVal)) (key : String) (v : JVal) :
    List (String × JVal) :=
  match fields with
  | [] => [(key, v)]
  | (k, old) :: rest =>
    if k == key then (k, v) :: rest else (k, old) :: jFieldsSet rest key v

/-- Deletes one field of an object field list. -/
def jFieldsErase (fields : List (String × JVal)) (key : String) :
    List (String × JVal) :=
  match fields with
  | [] => []
  | (k, v) :: rest =>
    if k == key then jFieldsErase rest key else (k, v) :: jFieldsErase rest key

/-- Modelled from the spec: `getObjectValue` (src/lib/utils/object, not under
src/). Spec section 4.4: reads the value at a dot-delimited path inside a
document; a missing segment yields no value. -/
def getObjectValue (v : JVal) (path : String) : Option JVal :=
  (jsSplit '.' path).foldl (fun acc seg => acc.bind (fun x => jObjGet x seg)) (some v)

/-- Declared reference paths of a document: the `metadata.includes` array.
Mirrors the `jsonData.metadata?.includes` guard of both passes; entries that
are not strings would make the source throw on `split` and are outside the
model. -/
def declaredIncludes (doc : JVal) : List String :=
  match jObjGet doc "metadata" with
  | some m =>
    match jObjGet m "includes" with
    | some (.arr xs) => xs.filterMap (fun v => match v with | .str s => some s | _ => none)
    | _ => []
  | none => []

/-- Argument record handed to a mounting strategy, mirroring the object
literal built in `includeParser.static.run` and `includeParser.dynamic.run`. -/
structure IncludeParserArgs where
  fileContent : JVal
  includeData : Option JVal
  mountPointPath : List String
  includeKey : String

/-- Mounting strategies (configIncludeParser, entityIncludeParser,
customIncludeParser, localeIncludeParser) live outside the provided sources;
the resolver routes to them, so they are parameters of the embedding. A
strategy receives the argument record and returns the rewritten document. -/
abbrev MountStrategy : Type := IncludeParserArgs → JVal

/-- Processing of one declared reference by the static pass (src/unnamed/
part_001 lines 82 to 122): read the referenced value, look it up in the
store, split the reference path into mount point and include key, and run
every strategy whose suffix test matches the lower-cased key; the four tests
are separate `if` statements, so the document threads through all four in
order. A falsy (empty) include key runs no strategy. -/
def processStaticInclude (storeLookup : JVal → Option JVal)
    (configP entityP customP localeP : MountStrategy)
    (doc : JVal) (includePath : String) : JVal :=
  let includePathValue := getObjectValue doc includePath
  let includeData := includePathValue.bind storeLookup
  let segs := jsSplit '.' includePath
  let includeKey := segs.getLastD ""
  let mountPointPath := segs.dropLast
  if includeKey == "" then doc
  else
    let key := jsToLower includeKey
    let d1 := if jsEndsWith key "configinclude" then
      configP ⟨doc, includeData, mountPointPath, includeKey⟩ else doc
    let d2 := if jsEndsWith key "entityinclude" then
      entityP ⟨d1, includeData, mountPointPath, includeKey⟩ else d1
    let d3 := if jsEndsWith key "custominclude" then
      customP ⟨d2, includeData, mountPointPath, includeKey⟩ else d2
    let d4 := if jsEndsWith key "localeinclude" then
      localeP ⟨d3, includeData, mountPointPath, includeKey⟩ else d3
    d4

/-- Mirrors `includeParser.static.run` (src/unnamed/part_001 lines 77 to
126): every declared reference is processed in declaration order. -/
def staticRun (storeLookup : JVal → Option JVal)
    (configP entityP customP localeP : MountStrategy) (doc : JVal) : JVal :=
  (declaredIncludes doc).foldl (processStaticInclude storeLookup configP entityP customP localeP) doc

/-- Splits one query-string segment at its first `=`, as `URLSearchParams`
does; a segment without `=` maps to the empty value. -/
def querySegToPair : List Char → String × String
  | [] => ("", "")
  | '=' :: rest => ("", ⟨rest⟩)
  | c :: rest =>
    let p := querySegToPair rest
    (⟨c :: p.1.data⟩, p.2)

/-- Model of the pair list of `new URLSearchParams(queryString)` for query
strings without percent-escapes or `+` (the decoding the external platform
class performs is not re-modelled): split at `&`, drop empty segments, split
each segment at its first `=`. -/
def urlSearchPairs (queryString : String) : List (String × String) :=
  (jsSplit '&' queryString).filterMap (fun seg =>
    if seg == "" then none else some (querySegToPair seg.data))

/-- Mirrors `parseParams` (src/unnamed/part_001 lines 61 to 74): every key of
the pair list is visited in order (duplicates included, as
`Array.from(params.keys())` yields them); a key with more than one value maps
to the array of all its values, otherwise to its single value. Repeated
visits of a duplicated key overwrite the entry with the same value, so the
record keeps first-occurrence order. -/
def parseParams (queryString : String) : List (String × JVal) :=
  let pairs := urlSearchPairs queryString
  pairs.foldl (fun obj kv =>
    let k := kv.1
    let all := (pairs.filter (fun p => p.1 == k)).map (fun p => p.2)
    let v := if all.length > 1 then JVal.arr (all.map .str) else JVal.str (all.headD "")
    jFieldsSet obj k v) []

/-- Mounts data at a dot path inside a document, creating intermediate
objects as needed; the final rewrite is applied to the value reached. A
non-object on the way cannot hold children and is left unchanged. -/
def mountAt (doc : JVal) (path : List String) (rewrite : JVal → JVal) : JVal :=
  match path with
  | [] => rewrite doc
  | seg :: rest =>
    match doc with
    | .obj fields =>
      let child :=
        match jObjGet (.obj fields) seg with
        | some c => c
        | none => .obj []
      .obj (jFieldsSet fields seg (mountAt child rest rewrite))
    | other => other

/-- Modelled from the spec: `aliasWithoutTypeIncludeParser`
(src/lib/store/includeParser/parsers/types, not under src/). Spec sections
4.4 and 8: the resolved data is mounted at the alias path, the reference key
with its type tag and the `Include` suffix stripped (for type `query`,
`relatedArticlesQueryInclude` mounts at `relatedArticles`), and the original
reference key is removed, the same key-removal semantics as static includes.
Absent data mounts as null. -/
def aliasWithoutTypeIncludeParser (args : IncludeParserArgs) (type : String) : JVal :=
  let keyChars := args.includeKey.data
  let aliasKey : String := ⟨keyChars.take (keyChars.length - (type.data.length + 7))⟩
  let payload := match args.includeData with | some v => v | none => JVal.null
  mountAt args.fileContent args.mountPointPath (fun mp =>
    match mp with
    | .obj fields => .obj (jFieldsErase (jFieldsSet fields aliasKey payload) args.includeKey)
    | other => other)

/-- Processing of one declared reference by the dynamic pass (src/unnamed/
part_001 lines 132 to 157): a reference whose lower-cased path ends in
`queryinclude` has its referenced string split at `?` into the query id and
the query string, the decoded parameters are handed to the query runner, and
the result is mounted by the alias-without-type strategy tagged `query`. The
source calls `split` on the referenced value unconditionally and would throw
on a non-string; that corner is outside the model and left unchanged here. -/
def processDynamicInclude (runQuery : String → List (String × JVal) → JVal)
    (doc : JVal) (includePath : String) : JVal :=
  if jsEndsWith (jsToLower includePath) "queryinclude" then
    match getObjectValue doc includePath with
    | some (.str s) =>
      let queryData := jsSplit '?' s
      let queryId := queryData.headD ""
      let queryArgs := if queryData.getD 1 "" == "" then [] else parseParams (queryData.getD 1 "")
      let includeData := runQuery queryId queryArgs
      let segs := jsSplit '.' includePath
      let includeKey := segs.getLastD ""
      let mountPointPath := segs.dropLast
      if includeKey == "" then doc
      else aliasWithoutTypeIncludeParser ⟨doc, some includeData, mountPointPath, includeKey⟩ "query"
    | _ => doc
  else doc

/-- Mirrors `includeParser.dynamic.run` (src/unnamed/part_001 lines 127 to
161). -/
def dynamicRun (runQuery : String → List (String × JVal) → JVal) (doc : JVal) : JVal :=
  (declaredIncludes doc).foldl (processDynamicInclude runQuery) doc

/-- Result of the external `require(modulePath)` call: resolution can throw,
or return a module value, which JavaScript may coerce to false (a module
whose export is null or undefined). -/
inductive RequireResult where
  | throws
  | exports (truthy : Bool) (value : String)
deriving DecidableEq, Repr

/-- Module registry: path to cached value, with the value's truthiness. -/
abbrev Registry : Type := List (String × (Bool × String))

/-- Looks up a registry entry. -/
def registryGet (reg : Registry) (path : String) : Option (Bool × String) :=
  match reg with
  | [] => none
  | (p, v) :: rest => if p == path then some v else registryGet rest path

/-- Mirrors the `delete modules[modulePath]` statement. -/
def registryErase (reg : Registry) (path : String) : Registry :=
  match reg with
  | [] => []
  | (p, v) :: rest =>
    if p == path then registryErase rest path else (p, v) :: registryErase rest path

/-- Mirrors `moduleHandler.load` (src/unnamed/part_001 lines 29 to 37): the
cached entry is deleted, the fresh require result is stored, and a falsy
stored value throws. The returned option is the handle, `none` when the call
throws; the registry component is the state after the call, including the
mutations a throwing call leaves behind. -/
def moduleHandlerLoad (req : String → RequireResult) (reg : Registry)
    (path : String) : Registry × Option (Bool × String) :=
  let reg1 := registryErase reg path
  match req path with
  | .throws => (reg1, none)
  | .exports truthy value =>
    let reg2 := reg1 ++ [(path, (truthy, value))]
    if truthy then (reg2, some (truthy, value)) else (reg2, none)

/-- Mirrors `moduleHandler.get` (src/unnamed/part_001 lines 45 to 46):
`modules[modulePath] || moduleHandler.load(modulePath)`. -/
def moduleHandlerGet (req : String → RequireResult) (reg : Registry)
    (path : String) : Registry × Option (Bool × String) :=
  match registryGet reg path with
  | some v => if v.1 then (reg, some v) else moduleHandlerLoad req reg path
  | none => moduleHandlerLoad req reg path

/-- Mirrors `moduleHandler.remove` (src/unnamed/part_001 lines 39 to 43). -/
def moduleHandlerRemove (reg : Registry) (path : String) : Registry :=
  registryErase reg path

/-- Plain child walk: the value stored at a path of the tree, descending only
through directory children. -/
def lookupPath : Node → List String → Option Node
  | n, [] => some n
  | .dir _ ch, seg :: rest => (childGet ch seg).bind (fun c => lookupPath c rest)
  | _, _ :: _ => none

/-- Ingestion path condition under which the `add` walk runs without
touching undefined properties: every proper prefix of the path resolves to a
directory, to nothing, or to an empty (falsy) raw value that the walk
replaces by a skeleton. The final segment is unconstrained. -/
def addPathOk : Node → List String → Bool
  | .dir _ _, [] => true
  | .dir _ _, [_] => true
  | .dir _ ch, part :: rest =>
    match childGet ch part with
    | none => true
    | some (.dir i c) => addPathOk (.dir i c) rest
    | some (.raw s) => s == ""
    | some (.doc _) => false
  | _, _ => false

/-- Every proper prefix of the path is present and a directory. -/
def properDirs : Node → List String → Bool
  | .dir _ _, [] => true
  | .dir _ _, [_] => true
  | .dir _ ch, part :: rest =>
    match childGet ch part with
    | some (.dir i c) => properDirs (.dir i c) rest
    | _ => false
  | _, _ => false

/-- Some intermediate (non-final) segment of the path is absent: the walk
from the root runs into a directory that has no child of that name. -/
def intermediateAbsent : Node → List String → Bool
  | _, [] => false
  | _, [_] => false
  | .dir _ ch, part :: rest =>
    match childGet ch part with
    | none => true
    | some c => intermediateAbsent c rest
  | _, _ :: _ => false

theorem childGet_childSet_self : ∀ (ch : Children) (k : String) (v : Node),
    childGet (childSet ch k v) k = some v
  | .nil, k, v => by simp [childSet, childGet]
  | .cons key n rest, k, v => by
    by_cases h : key == k
    · simp [childSet, h, childGet]
    · simp [childSet, h, childGet, childGet_childSet_self rest k v]

theorem childGet_childSet_ne : ∀ (ch : Children) (k k' : String) (v : Node),
    k' ≠ k → childGet (childSet ch k v) k' = childGet ch k'
  | .nil, k, k', v, h => by
    simp [childSet, childGet]
    intro he
    exact absurd he.symm h
  | .cons key n rest, k, k', v, h => by
    by_cases hk : key == k
    · have hkey : key = k := by simpa using hk
      simp [childSet, hk, childGet, hkey, Ne.symm h]
    · by_cases hk2 : key == k'
      · simp [childSet, hk, childGet, hk2]
      · simp [childSet, hk, childGet, hk2, childGet_childSet_ne rest k k' v h]

theorem childGet_childErase_self : ∀ (ch : Children) (k : String),
    childGet (childErase ch k) k = none
  | .nil, k => by simp [childErase, childGet]
  | .cons key n rest, k => by
    by_cases h : key == k
    · simp [childErase, h, childGet_childErase_self rest k]
    · simp [childErase, h, childGet, childGet_childErase_self rest k]

theorem registryGet_registryErase_self (reg : Registry) (p : String) :
    registryGet (registryErase reg p) p = none := by
  induction reg with
  | nil => simp [registryErase, registryGet]
  | cons e rest ih =>
    by_cases h : e.1 == p
    · simpa [registryErase, h] using ih
    · simpa [registryErase, h, registryGet] using ih

theorem registryGet_append_single (reg : Registry) (p : String) (v : Bool × String)
    (h : registryGet reg p = none) : registryGet (reg ++ [(p, v)]) p = some v := by
  induction reg with
  | nil => simp [registryGet]
  | cons e rest ih =>
    by_cases he : e.1 == p
    · simp [registryGet, he] at h
    · simp [registryGet, he] at h ⊢
      exact ih h

/-- Claim C4: an `add` call with `useStage` set never changes the live tree,
so the result of any `get` against the live tree is the same before and after
the call; staged writes stay invisible to live readers until promotion. -/
theorem claimC4 (fs : String → FileContents) (st : Store) (c : CacheData)
    (dataDir file : String) (useCache : Bool) :
    (storeAdd fs st c dataDir file ⟨true, useCache⟩).1.data = st.data ∧
    ∀ p, storeGet (storeAdd fs st c dataDir file ⟨true, useCache⟩).1 p = storeGet st p := by
  have hdata : (storeAdd fs st c dataDir file ⟨true, useCache⟩).1.data = st.data := by
    unfold storeAdd
    by_cases h1 : (file == "") = true
    · simp [h1]
    · by_cases h2 : (!meetsPathRequirements (jsSplit '/' file)) = true
      · simp [h1, h2]
      · simp [h1, h2, storeAddCore]
  exact ⟨hdata, fun p => by rw [storeGet, storeGet, hdata]⟩

/-- Claim C5: `promoteStage` installs the staging tree (and with it the index
it carries) as the live tree, so reads now walk exactly the old staging tree,
and resets staging to the empty skeleton whose index has `main = []` and
`variants = {}`. -/
theorem claimC5 (st : Store) :
    (promoteStage st).data = st.stage ∧
    (promoteStage st).stage = Node.dir ⟨[], []⟩ .nil ∧
    ∀ p, storeGet (promoteStage st) p = (jsSplit '/' p).foldl getStep (.node st.stage) :=
  ⟨rfl, rfl, fun _ => rfl⟩

/-- Claim C6: an `add` whose relative path is empty or contains the reserved
`_json` segment returns with the store and the cache completely unchanged and
no thrown error, and in the reserved-segment case the only log entry produced
by the path check is a warning, never an error. -/
theorem claimC6 (fs : String → FileContents) (st : Store) (c : CacheData)
    (dataDir file : String) (opts : AddOptions)
    (h : file = "" ∨ (jsSplit '/' file).contains "_json" = true) :
    storeAdd fs st c dataDir file opts = (st, c, none) ∧
    (∀ e ∈ meetsPathRequirementsLog (jsSplit '/' file), e.1 = LogItemLevel.warn) ∧
    ((jsSplit '/' file).contains "_json" = true →
      meetsPathRequirementsLog (jsSplit '/' file) ≠ []) := by
  rcases h with h | h
  · subst h
    refine ⟨rfl, ?_, ?_⟩
    · intro e he
      simp [meetsPathRequirementsLog, jsSplit, jsSplitChars] at he
    · intro hc
      exact absurd hc (by decide)
  · have hmem : "_json" ∈ jsSplit '/' file := by simpa using h
    have hreq : meetsPathRequirements (jsSplit '/' file) = false := by
      simp [meetsPathRequirements]
      exact hmem
    refine ⟨?_, ?_, ?_⟩
    · unfold storeAdd
      by_cases h1 : (file == "") = true
      · rw [if_pos h1]
      · rw [if_neg h1]
        simp [hreq]
    · intro e he
      unfold meetsPathRequirementsLog at he
      rw [if_pos h] at he
      simp at he
      simp [he]
    · intro _
      unfold meetsPathRequirementsLog
      rw [if_pos h]
      simp

/-- Witness for claim C6 at the reserved-segment example path of the spec. -/
theorem claimC6_witness :
    storeAdd (fun _ => ⟨"r", some "p"⟩) emptyStore [] "data" "en/_json/40000/41234.json" ⟨false, false⟩ =
      (emptyStore, [], none) ∧
    meetsPathRequirementsLog (jsSplit '/' "en/_json/40000/41234.json") ≠ [] := by
  have h := claimC6 (fun _ => ⟨"r", some "p"⟩) emptyStore [] "data"
    "en/_json/40000/41234.json" ⟨false, false⟩ (Or.inr (by decide))
  exact ⟨h.1, h.2.2 (by decide)⟩

theorem jsEndsWith_eq_of_len (s a b : String) (ha : jsEndsWith s a = true)
    (hb : jsEndsWith s b = true) (hlen : a.data.length = b.data.length) : a = b := by
  simp only [jsEndsWith, Bool.and_eq_true, decide_eq_true_eq, beq_iff_eq] at ha hb
  have hda : s.data.drop (s.data.length - a.data.length) = a.data := ha.2
  have hdb : s.data.drop (s.data.length - b.data.length) = b.data := hb.2
  have : a.data = b.data := by
    rw [← hda, ← hdb, hlen]
  cases a
  cases b
  exact congrArg String.mk this

theorem suffixPairFalse (s a b : String) (hne : a ≠ b)
    (hla : a.data.length = 13) (hlb : b.data.length = 13) :
    ¬(jsEndsWith s a = true ∧ jsEndsWith s b = true) := fun hab =>
  hne (jsEndsWith_eq_of_len s a b hab.1 hab.2 (by rw [hla, hlb]))

/-- Lower-cased trailing segment of a reference path, the string the static
pass dispatches on. -/
def staticIncludeKey (includePath : String) : String :=
  jsToLower ((jsSplit '.' includePath).getLastD "")

/-- Results of the four suffix tests of the static pass, in source order. -/
def staticSuffixMatches (includePath : String) : List Bool :=
  [jsEndsWith (staticIncludeKey includePath) "configinclude",
   jsEndsWith (staticIncludeKey includePath) "entityinclude",
   jsEndsWith (staticIncludeKey includePath) "custominclude",
   jsEndsWith (staticIncludeKey includePath) "localeinclude"]

theorem atMostOneSuffix (s : String) :
    ([jsEndsWith s "configinclude", jsEndsWith s "entityinclude",
      jsEndsWith s "custominclude", jsEndsWith s "localeinclude"]).count true ≤ 1 := by
  by_cases h1 : jsEndsWith s "configinclude" = true
  · have h2 : jsEndsWith s "entityinclude" = false := by
      cases he : jsEndsWith s "entityinclude"
      · rfl
      · exact absurd ⟨h1, he⟩ (suffixPairFalse s _ _ (by decide) (by decide) (by decide))
    have h3 : jsEndsWith s "custominclude" = false := by
      cases he : jsEndsWith s "custominclude"
      · rfl
      · exact absurd ⟨h1, he⟩ (suffixPairFalse s _ _ (by decide) (by decide) (by decide))
    have h4 : jsEndsWith s "localeinclude" = false := by
      cases he : jsEndsWith s "localeinclude"
      · rfl
      · exact absurd ⟨h1, he⟩ (suffixPairFalse s _ _ (by decide) (by decide) (by decide))
    simp [h1, h2, h3, h4]
  · have h1f : jsEndsWith s "configinclude" = false := by
      cases he : jsEndsWith s "configinclude"
      · rfl
      · exact absurd he h1
    by_cases h2 : jsEndsWith s "entityinclude" = true
    · have h3 : jsEndsWith s "custominclude" = false := by
        cases he : jsEndsWith s "custominclude"
        · rfl
        · exact absurd ⟨h2, he⟩ (suffixPairFalse s _ _ (by decide) (by decide) (by decide))
      have h4 : jsEndsWith s "localeinclude" = false := by
        cases he : jsEndsWith s "localeinclude"
        · rfl
        · exact absurd ⟨h2, he⟩ (suffixPairFalse s _ _ (by decide) (by decide) (by decide))
      simp [h1f, h2, h3, h4]
    · have h2f : jsEndsWith s "entityinclude" = false := by
        cases he : jsEndsWith s "entityinclude"
        · rfl
        · exact absurd he h2
      by_cases h3 : jsEndsWith s "custominclude" = true
      · have h4 : jsEndsWith s "localeinclude" = false := by
          cases he : jsEndsWith s "localeinclude"
          · rfl
          · exact absurd ⟨h3, he⟩ (suffixPairFalse s _ _ (by decide) (by decide) (by decide))
        simp [h1f, h2f, h3, h4]
      · have h3f : jsEndsWith s "custominclude" = false := by
          cases he : jsEndsWith s "custominclude"
          · rfl
          · exact absurd he h3
        cases h4 : jsEndsWith s "localeinclude" <;> simp [h1f, h2f, h3f, h4]

/-- Claim C10: the four suffix tests of the static pass are mutually
exclusive, so at most one of the four mounting strategies runs for a declared
reference, and a reference whose trailing segment matches none of the four
suffixes runs no strategy and leaves the document unchanged. -/
theorem claimC10 (storeLookup : JVal → Option JVal)
    (configP entityP customP localeP : MountStrategy) (doc : JVal) (includePath : String) :
    (staticSuffixMatches includePath).count true ≤ 1 ∧
    (staticSuffixMatches includePath = [false, false, false, false] →
      processStaticInclude storeLookup configP entityP customP localeP doc includePath = doc) := by
  constructor
  · exact atMostOneSuffix (staticIncludeKey includePath)
  · intro hm
    simp only [staticSuffixMatches, List.cons.injEq, and_true] at hm
    obtain ⟨hm1, hm2, hm3, hm4⟩ := hm
    unfold processStaticInclude
    simp only [staticIncludeKey] at hm1 hm2 hm3 hm4
    simp only [hm1, hm2, hm3, hm4, Bool.false_eq_true, if_false]
    split <;> rfl

/-- Witness for claim C10 at a reference key that matches no suffix. -/
theorem claimC10_witness :
    (staticSuffixMatches "data.content.fooInclude").count true ≤ 1 ∧
    processStaticInclude (fun _ => none) (fun a => a.fileContent) (fun a => a.fileContent)
      (fun a => a.fileContent) (fun a => a.fileContent) JVal.null "data.content.fooInclude" =
      JVal.null := by
  have h := claimC10 (fun _ => none) (fun a => a.fileContent) (fun a => a.fileContent)
    (fun a => a.fileContent) (fun a => a.fileContent) JVal.null "data.content.fooInclude"
  exact ⟨h.1, h.2 (by decide)⟩

/-- Counterexample to claim C9 as stated: when the module at the path loads
as a falsy export (for example `module.exports = null`), `load` fails (throws
after the check), yet the registry still holds an entry for the path, namely
the falsy fresh value, so a failed load does not always leave the registry
with no entry at all for that path. -/
theorem claimC9_counterexample :
    (moduleHandlerLoad (fun _ => .exports false "nullExport") [("m", (true, "handle"))] "m").2 = none ∧
    registryGet (moduleHandlerLoad (fun _ => .exports false "nullExport")
      [("m", (true, "handle"))] "m").1 "m" = some (false, "nullExport") := by
  constructor
  · rfl
  · rfl

/-- Claim C9 as amended: `get` returns the cached handle when a truthy one is
present and performs `load` when none is cached; `load` always discards the
prior entry first, so after a `load` the registry entry for the path is
exactly the fresh require result, never the prior handle: no entry at all
when resolution throws, and the falsy fresh value (with the call still
failing) when the module loads but yields no usable handle. -/
theorem claimC9 (req : String → RequireResult) (reg : Registry) (path : String) :
    (registryGet (moduleHandlerLoad req reg path).1 path =
      match req path with
      | .throws => none
      | .exports t v => some (t, v)) ∧
    ((moduleHandlerLoad req reg path).2 =
      match req path with
      | .exports true v => some (true, v)
      | _ => none) ∧
    (∀ v, registryGet reg path = some v → v.1 = true →
      moduleHandlerGet req reg path = (reg, some v)) ∧
    (registryGet reg path = none →
      moduleHandlerGet req reg path = moduleHandlerLoad req reg path) := by
  refine ⟨?_, ?_, ?_, ?_⟩
  · rcases hreq : req path with _ | ⟨t, v⟩
    · simp [moduleHandlerLoad, hreq, registryGet_registryErase_self]
    · cases t <;>
        simp [moduleHandlerLoad, hreq,
          registryGet_append_single _ _ _ (registryGet_registryErase_self reg path)]
  · rcases hreq : req path with _ | ⟨t, v⟩
    · simp [moduleHandlerLoad, hreq]
    · cases t <;> simp [moduleHandlerLoad, hreq]
  · intro v hv ht
    simp [moduleHandlerGet, hv, ht]
  · intro hv
    simp [moduleHandlerGet, hv]

/-- Witness for claim C9: a truthy cached handle is served from the registry,
and a missing entry defers to `load`. -/
theorem claimC9_witness :
    moduleHandlerGet (fun _ => .throws) [("p", (true, "h"))] "p" =
      ([("p", (true, "h"))], some (true, "h")) ∧
    moduleHandlerGet (fun _ => RequireResult.exports true "fresh") [] "q" =
      moduleHandlerLoad (fun _ => RequireResult.exports true "fresh") [] "q" := by
  have h1 := (claimC9 (fun _ => .throws) [("p", (true, "h"))] "p").2.2.1 (true, "h") rfl rfl
  have h2 := (claimC9 (fun _ => RequireResult.exports true "fresh") [] "q").2.2.2 rfl
  exact ⟨h1, h2⟩

theorem jsSplitChars_ne_nil (sep : Char) : ∀ (cs : List Char), jsSplitChars sep cs ≠ []
  | [] => by simp [jsSplitChars]
  | c :: rest => by
    have ih := jsSplitChars_ne_nil sep rest
    unfold jsSplitChars
    by_cases h : (c == sep) = true
    · simp [h]
    · simp only [h]
      rcases hr : jsSplitChars sep rest with _ | ⟨hd, tl⟩
      · simp
      · simp

theorem jsSplit_ne_nil (sep : Char) (s : String) : jsSplit sep s ≠ [] := by
  unfold jsSplit
  intro h
  exact jsSplitChars_ne_nil sep s.data (List.map_eq_nil_iff.mp h)

theorem addPathOk_nilChildren (i : Index) : ∀ (parts : List String),
    addPathOk (.dir i .nil) parts = true
  | [] => rfl
  | [_] => rfl
  | _ :: _ :: _ => rfl

theorem addPathOk_idxIrrel (i i' : Index) (ch : Children) : ∀ (parts : List String),
    addPathOk (.dir i ch) parts = addPathOk (.dir i' ch) parts
  | [] => rfl
  | [_] => rfl
  | _ :: _ :: _ => rfl

theorem properDirs_idxIrrel (i i' : Index) (ch : Children) : ∀ (parts : List String),
    properDirs (.dir i ch) parts = properDirs (.dir i' ch) parts
  | [] => rfl
  | [_] => rfl
  | _ :: _ :: _ => rfl

theorem lookupPath_idxIrrel (i i' : Index) (ch : Children) : ∀ (parts : List String),
    parts ≠ [] → lookupPath (.dir i ch) parts = lookupPath (.dir i' ch) parts
  | [], h => absurd rfl h
  | _ :: _, _ => rfl

theorem addSkeletonPush (file : String) (jsonDoc : Option Doc) :
    ∃ i2, addFileToJsonItemsNode storeDataSkeleton file jsonDoc = (Node.dir i2 .nil, none) := by
  cases jsonDoc with
  | none => exact ⟨⟨[], []⟩, rfl⟩
  | some d => exact ⟨addFileToJsonItems ⟨[], []⟩ file d, rfl⟩

theorem addDirPush (file : String) (jsonDoc : Option Doc) (i0 : Index) (c0 : Children) :
    ∃ i2, addFileToJsonItemsNode (.dir i0 c0) file jsonDoc = (Node.dir i2 c0, none) := by
  cases jsonDoc with
  | none => exact ⟨i0, rfl⟩
  | some d => exact ⟨addFileToJsonItems i0 file d, rfl⟩

theorem addWalk_ok (file : String) (jsonDoc : Option Doc) (rawContents : String) :
    ∀ (parts : List String) (i : Index) (ch : Children),
    addPathOk (.dir i ch) parts = true → parts ≠ [] →
    ∃ ch', addWalk file jsonDoc rawContents parts (.dir i ch) = (.dir i ch', none) ∧
      lookupPath (.dir i ch') parts = some (leafValue jsonDoc rawContents) ∧
      properDirs (.dir i ch') parts = true
  | [], _, _, _, hne => absurd rfl hne
  | [last], i, ch, _, _ => by
    refine ⟨childSet ch last (leafValue jsonDoc rawContents), rfl, ?_, rfl⟩
    simp [lookupPath, childGet_childSet_self]
  | part :: next :: rest, i, ch, hok, _ => by
    unfold addPathOk at hok
    rcases hc : childGet ch part with _ | c
    · rw [hc] at hok
      rcases addSkeletonPush file jsonDoc with ⟨i2, hskel⟩
      rcases addWalk_ok file jsonDoc rawContents (next :: rest) i2 .nil
          (addPathOk_nilChildren i2 (next :: rest)) (by simp) with ⟨ch3, hw, hl, hp⟩
      refine ⟨childSet ch part (.dir i2 ch3), ?_, ?_, ?_⟩
      · show (match Node.dir i ch with
          | Node.dir idx ch =>
            let child1 :=
              match childGet ch part with
              | none => storeDataSkeleton
              | some (Node.raw s) => if (s == "") = true then storeDataSkeleton else Node.raw s
              | some c => c
            match addFileToJsonItemsNode child1 file jsonDoc with
            | (child2, some e) => (Node.dir idx (childSet ch part child2), some e)
            | (child2, none) =>
              match child2 with
              | Node.dir i2 c2 =>
                match addWalk file jsonDoc rawContents (next :: rest) (Node.dir i2 c2) with
                | (child3, err) => (Node.dir idx (childSet ch part child3), err)
              | nonDir => (Node.dir idx (childSet ch part nonDir),
                  some "unmodelled: walk entered a non-directory value")
          | other => (other, some "unmodelled: walk entered a non-directory value")) =
          (Node.dir i (childSet ch part (Node.dir i2 ch3)), none)
        simp only [hc, hskel, hw]
      · simp only [lookupPath, childGet_childSet_self, Option.some_bind]
        exact hl
      · unfold properDirs
        rw [childGet_childSet_self]
        exact hp
    · rw [hc] at hok
      cases c with
      | doc d => simp at hok
      | raw s =>
        have hs : (s == "") = true := by simpa using hok
        rcases addSkeletonPush file jsonDoc with ⟨i2, hskel⟩
        rcases addWalk_ok file jsonDoc rawContents (next :: rest) i2 .nil
            (addPathOk_nilChildren i2 (next :: rest)) (by simp) with ⟨ch3, hw, hl, hp⟩
        refine ⟨childSet ch part (.dir i2 ch3), ?_, ?_, ?_⟩
        · show (match Node.dir i ch with
            | Node.dir idx ch =>
              let child1 :=
                match childGet ch part with
                | none => storeDataSkeleton
                | some (Node.raw s) => if (s == "") = true then storeDataSkeleton else Node.raw s
                | some c => c
              match addFileToJsonItemsNode child1 file jsonDoc with
              | (child2, some e) => (Node.dir idx (childSet ch part child2), some e)
              | (child2, none) =>
                match child2 with
                | Node.dir i2 c2 =>
                  match addWalk file jsonDoc rawContents (next :: rest) (Node.dir i2 c2) with
                  | (child3, err) => (Node.dir idx (childSet ch part child3), err)
                | nonDir => (Node.dir idx (childSet ch part nonDir),
                    some "unmodelled: walk entered a non-directory value")
            | other => (other, some "unmodelled: walk entered a non-directory value")) =
            (Node.dir i (childSet ch part (Node.dir i2 ch3)), none)
          simp only [hc, hs, if_true, hskel, hw]
        · simp only [lookupPath, childGet_childSet_self, Option.some_bind]
          exact hl
        · unfold properDirs
          rw [childGet_childSet_self]
          exact hp
      | dir i0 c0 =>
        have hok0 : addPathOk (.dir i0 c0) (next :: rest) = true := by simpa using hok
        rcases addDirPush file jsonDoc i0 c0 with ⟨i2, hpush⟩
        have hok2 : addPathOk (.dir i2 c0) (next :: rest) = true := by
          rw [addPathOk_idxIrrel i2 i0]
          exact hok0
        rcases addWalk_ok file jsonDoc rawContents (next :: rest) i2 c0 hok2
            (by simp) with ⟨ch3, hw, hl, hp⟩
        refine ⟨childSet ch part (.dir i2 ch3), ?_, ?_, ?_⟩
        · show (match Node.dir i ch with
            | Node.dir idx ch =>
              let child1 :=
                match childGet ch part with
                | none => storeDataSkeleton
                | some (Node.raw s) => if (s == "") = true then storeDataSkeleton else Node.raw s
                | some c => c
              match addFileToJsonItemsNode child1 file jsonDoc with
              | (child2, some e) => (Node.dir idx (childSet ch part child2), some e)
              | (child2, none) =>
                match child2 with
                | Node.dir i2 c2 =>
                  match addWalk file jsonDoc rawContents (next :: rest) (Node.dir i2 c2) with
                  | (child3, err) => (Node.dir idx (childSet ch part child3), err)
                | nonDir => (Node.dir idx (childSet ch part nonDir),
                    some "unmodelled: walk entered a non-directory value")
            | other => (other, some "unmodelled: walk entered a non-directory value")) =
            (Node.dir i (childSet ch part (Node.dir i2 ch3)), none)
          simp only [hc, hpush, hw]
        · simp only [lookupPath, childGet_childSet_self, Option.some_bind]
          exact hl
        · unfold properDirs
          rw [childGet_childSet_self]
          exact hp

theorem foldl_getStep_absent : ∀ (parts : List String),
    parts.foldl getStep .absent = .absent
  | [] => rfl
  | _ :: rest => foldl_getStep_absent rest

theorem foldl_getStep_lookup : ∀ (parts : List String) (root : Node) (v : Node),
    "_json" ∉ parts → lookupPath root parts = some v →
    parts.foldl getStep (.node root) = .node v
  | [], root, v, _, h => by
    simp [lookupPath] at h
    simp [h]
  | seg :: rest, root, v, hmem, h => by
    cases root with
    | dir i ch =>
      simp only [lookupPath] at h
      rcases hcg : childGet ch seg with _ | c
      · rw [hcg] at h
        simp at h
      · rw [hcg] at h
        simp only [Option.some_bind] at h
        have hseg : (seg == "_json") = false := by
          simp only [beq_eq_false_iff_ne, ne_eq]
          intro he
          exact hmem (by simp [he])
        simp only [List.foldl, getStep, hseg, Bool.false_eq_true, if_false, hcg]
        exact foldl_getStep_lookup rest c v (fun hm => hmem (List.mem_cons_of_mem _ hm)) h
    | doc d => simp [lookupPath] at h
    | raw s => simp [lookupPath] at h

theorem foldl_getStep_lookup_none : ∀ (parts : List String) (root : Node),
    "_json" ∉ parts → properDirs root parts = true → lookupPath root parts = none →
    parts.foldl getStep (.node root) = .absent
  | [], root, _, _, h => by simp [lookupPath] at h
  | [last], root, hmem, hp, h => by
    cases root with
    | dir i ch =>
      simp only [lookupPath] at h
      rcases hcg : childGet ch last with _ | c
      · have hseg : (last == "_json") = false := by
          simp only [beq_eq_false_iff_ne, ne_eq]
          intro he
          exact hmem (by simp [he])
        simp [List.foldl, getStep, hseg, hcg, foldl_getStep_absent]
      · rw [hcg] at h
        simp at h
    | doc d => simp [properDirs] at hp
    | raw s => simp [properDirs] at hp
  | seg :: next :: rest, root, hmem, hp, h => by
    cases root with
    | dir i ch =>
      unfold properDirs at hp
      rcases hcg : childGet ch seg with _ | c
      · rw [hcg] at hp
        simp at hp
      · rw [hcg] at hp
        cases c with
        | doc d => simp at hp
        | raw s => simp at hp
        | dir i0 c0 =>
          simp only [lookupPath, hcg, Option.some_bind] at h
          have hseg : (seg == "_json") = false := by
            simp only [beq_eq_false_iff_ne, ne_eq]
            intro he
            exact hmem (by simp [he])
          simp only [List.foldl, getStep, hseg, Bool.false_eq_true, if_false, hcg]
          exact foldl_getStep_lookup_none (next :: rest) (.dir i0 c0)
            (fun hm => hmem (List.mem_cons_of_mem _ hm)) (by simpa using hp) h
    | doc d => simp [properDirs] at hp
    | raw s => simp [properDirs] at hp

theorem foldl_getStep_intermediate : ∀ (parts : List String) (root : Node),
    "_json" ∉ parts → intermediateAbsent root parts = true →
    parts.foldl getStep (.node root) = .absent
  | [], root, _, h => by simp [intermediateAbsent] at h
  | [x], root, _, h => by
    have hf : intermediateAbsent root [x] = false := by cases root <;> rfl
    rw [hf] at h
    exact Bool.noConfusion h
  | seg :: next :: rest, root, hmem, h => by
    cases root with
    | dir i ch =>
      unfold intermediateAbsent at h
      have hseg : (seg == "_json") = false := by
        simp only [beq_eq_false_iff_ne, ne_eq]
        intro he
        exact hmem (by simp [he])
      rcases hcg : childGet ch seg with _ | c
      · simp [List.foldl, getStep, hseg, hcg, foldl_getStep_absent]
      · rw [hcg] at h
        simp only [List.foldl, getStep, hseg, Bool.false_eq_true, if_false, hcg]
        exact foldl_getStep_intermediate (next :: rest) c
          (fun hm => hmem (List.mem_cons_of_mem _ hm)) (by simpa using h)
    | doc d => simp [intermediateAbsent] at h
    | raw s => simp [intermediateAbsent] at h

theorem removeWalk_spec (file : String) :
    ∀ (parts : List String) (i : Index) (ch : Children),
    properDirs (.dir i ch) parts = true → parts ≠ [] →
    ∃ ch', removeWalk file parts (.dir i ch) = .dir i ch' ∧
      lookupPath (.dir i ch') parts = none ∧
      addPathOk (.dir i ch') parts = true ∧
      properDirs (.dir i ch') parts = true
  | [], _, _, _, hne => absurd rfl hne
  | [last], i, ch, _, _ => by
    refine ⟨childErase ch last, rfl, ?_, rfl, rfl⟩
    simp [lookupPath, childGet_childErase_self]
  | part :: next :: rest, i, ch, hp, _ => by
    unfold properDirs at hp
    rcases hcg : childGet ch part with _ | c
    · rw [hcg] at hp
      simp at hp
    · rw [hcg] at hp
      cases c with
      | doc d => simp at hp
      | raw s => simp at hp
      | dir i0 c0 =>
        have hp0 : properDirs (.dir i0 c0) (next :: rest) = true := by simpa using hp
        have hp1 : properDirs (.dir (removeFileFromJsonItems i0 file) c0) (next :: rest) = true := by
          rw [properDirs_idxIrrel _ i0]
          exact hp0
        rcases removeWalk_spec file (next :: rest) (removeFileFromJsonItems i0 file) c0
            hp1 (by simp) with ⟨ch2, hw, hl, ha, hpp⟩
        refine ⟨childSet ch part (.dir (removeFileFromJsonItems i0 file) ch2), ?_, ?_, ?_, ?_⟩
        · show (match Node.dir i ch with
            | Node.dir idx ch =>
              match childGet ch part with
              | some c =>
                let c' := removeFileFromJsonItemsNode c file
                if nodeTruthy c' = true then
                  Node.dir idx (childSet ch part (removeWalk file (next :: rest) c'))
                else removeWalk file (next :: rest) (Node.dir idx (childSet ch part c'))
              | none => removeWalk file (next :: rest) (Node.dir idx ch)
            | other => removeWalk file (next :: rest) other) =
            Node.dir i (childSet ch part (Node.dir (removeFileFromJsonItems i0 file) ch2))
          simp only [hcg, removeFileFromJsonItemsNode, nodeTruthy, if_true, hw]
        · simp only [lookupPath, childGet_childSet_self, Option.some_bind]
          exact hl
        · unfold addPathOk
          rw [childGet_childSet_self]
          exact ha
        · unfold properDirs
          rw [childGet_childSet_self]
          exact hpp

theorem addPathOk_doc (d : Doc) : ∀ (parts : List String), addPathOk (.doc d) parts = false
  | [] => rfl
  | [_] => rfl
  | _ :: _ :: _ => rfl

theorem addPathOk_raw (s : String) : ∀ (parts : List String), addPathOk (.raw s) parts = false
  | [] => rfl
  | [_] => rfl
  | _ :: _ :: _ => rfl

/-- Stored contents of an `add` on the live tree: the parsed document with
its `__FILENAME__` field, or the raw text. -/
def addStoredNode (fs : String → FileContents) (c : CacheData)
    (dataDir file : String) (useCache : Bool) : Node :=
  leafValue ((addEffectiveContents fs c (jsJoin dataDir file) useCache).json.map
    (fun payload => Doc.mk file payload))
    (addEffectiveContents fs c (jsJoin dataDir file) useCache).raw

theorem storeAdd_live_spec (fs : String → FileContents) (st : Store) (c : CacheData)
    (dataDir file : String) (useCache : Bool)
    (h1 : file ≠ "") (h2 : meetsPathRequirements (jsSplit '/' file) = true)
    (h3 : addPathOk st.data (jsSplit '/' file) = true) :
    ∃ i2 ch',
      storeAdd fs st c dataDir file ⟨false, useCache⟩ =
        ({ data := .dir i2 ch', stage := st.stage },
         addCacheAfter fs c (jsJoin dataDir file) useCache, none) ∧
      lookupPath (.dir i2 ch') (jsSplit '/' file) =
        some (addStoredNode fs c dataDir file useCache) ∧
      properDirs (.dir i2 ch') (jsSplit '/' file) = true := by
  have hne := jsSplit_ne_nil '/' file
  rcases hd : st.data with d | s | ⟨i, ch⟩
  · rw [hd, addPathOk_doc] at h3
    exact Bool.noConfusion h3
  · rw [hd, addPathOk_raw] at h3
    exact Bool.noConfusion h3
  · rw [hd] at h3
    rcases addWalk_ok file
        ((addEffectiveContents fs c (jsJoin dataDir file) useCache).json.map
          (fun payload => Doc.mk file payload))
        (addEffectiveContents fs c (jsJoin dataDir file) useCache).raw
        (jsSplit '/' file) i ch h3 hne with ⟨ch', hw, hl, hp⟩
    rcases addDirPush file
        ((addEffectiveContents fs c (jsJoin dataDir file) useCache).json.map
          (fun payload => Doc.mk file payload)) i ch' with ⟨i2, hpush⟩
    refine ⟨i2, ch', ?_, ?_, ?_⟩
    · have hb1 : ¬((file == "") = true) := by simp [h1]
      have hb2 : ¬((!meetsPathRequirements (jsSplit '/' file)) = true) := by simp [h2]
      unfold storeAdd
      rw [if_neg hb1]
      simp only [hb2, if_false]
      unfold storeAddCore
      simp only [hd, Bool.false_eq_true, if_false, hw, hpush]
    · rw [lookupPath_idxIrrel i2 i _ _ hne]
      exact hl
    · rw [properDirs_idxIrrel i2 i]
      exact hp

theorem properDirs_doc (d : Doc) : ∀ (parts : List String), properDirs (.doc d) parts = false
  | [] => rfl
  | [_] => rfl
  | _ :: _ :: _ => rfl

theorem properDirs_raw (s : String) : ∀ (parts : List String), properDirs (.raw s) parts = false
  | [] => rfl
  | [_] => rfl
  | _ :: _ :: _ => rfl

theorem meets_not_mem {file : String} (h : meetsPathRequirements (jsSplit '/' file) = true) :
    "_json" ∉ jsSplit '/' file := by
  simpa [meetsPathRequirements] using h

/-- Claim C1: a successful `add` on the live tree (nonempty path, no reserved
segment, no collision with an existing non-directory value along the path)
throws nothing, and `get` at that path immediately returns exactly the value
the add stored (the parsed document carrying its `__FILENAME__`, or the raw
text); after `remove` of the same path, `get` returns absent. -/
theorem claimC1 (fs : String → FileContents) (st : Store) (c : CacheData)
    (dataDir file : String) (useCache : Bool)
    (h1 : file ≠ "") (h2 : meetsPathRequirements (jsSplit '/' file) = true)
    (h3 : addPathOk st.data (jsSplit '/' file) = true) :
    (storeAdd fs st c dataDir file ⟨false, useCache⟩).2.2 = none ∧
    storeGet (storeAdd fs st c dataDir file ⟨false, useCache⟩).1 file =
      .node (addStoredNode fs c dataDir file useCache) ∧
    storeGet (storeRemove (storeAdd fs st c dataDir file ⟨false, useCache⟩).1 file) file =
      .absent := by
  have hne := jsSplit_ne_nil '/' file
  have hmem := meets_not_mem h2
  rcases storeAdd_live_spec fs st c dataDir file useCache h1 h2 h3 with ⟨i2, ch', heq, hl, hp⟩
  refine ⟨by rw [heq], ?_, ?_⟩
  · rw [heq]
    exact foldl_getStep_lookup (jsSplit '/' file) _ _ hmem hl
  · rw [heq]
    rcases removeWalk_spec file (jsSplit '/' file) i2 ch' hp hne with ⟨ch2, hw2, hl2, _, hp2⟩
    show storeGet (storeRemove ⟨.dir i2 ch', st.stage⟩ file) file = .absent
    unfold storeRemove
    simp only [hw2]
    show (jsSplit '/' file).foldl getStep
      (.node (.dir (removeFileFromJsonItems i2 file) ch2)) = .absent
    apply foldl_getStep_lookup_none (jsSplit '/' file) _ hmem
    · rw [properDirs_idxIrrel _ i2]
      exact hp2
    · rw [lookupPath_idxIrrel _ i2 _ _ hne]
      exact hl2

/-- Witness for claim C1: one concrete ingestion on the empty store. -/
theorem claimC1_witness :
    (storeAdd (fun _ => ⟨"raw", some "payload"⟩) emptyStore [] "data" "en/a.json"
      ⟨false, false⟩).2.2 = none ∧
    storeGet (storeAdd (fun _ => ⟨"raw", some "payload"⟩) emptyStore [] "data" "en/a.json"
      ⟨false, false⟩).1 "en/a.json" =
      .node (addStoredNode (fun _ => ⟨"raw", some "payload"⟩) [] "data" "en/a.json" false) ∧
    storeGet (storeRemove (storeAdd (fun _ => ⟨"raw", some "payload"⟩) emptyStore [] "data"
      "en/a.json" ⟨false, false⟩).1 "en/a.json") "en/a.json" = .absent :=
  claimC1 (fun _ => ⟨"raw", some "payload"⟩) emptyStore [] "data" "en/a.json" false
    (by decide) (by decide) (by decide)

theorem removeWalk_nilChildren (file : String) : ∀ (parts : List String) (i : Index),
    removeWalk file parts (.dir i .nil) = .dir i .nil
  | [], _ => rfl
  | [_], _ => rfl
  | p :: q :: rest, i => by
    show (match Node.dir i Children.nil with
      | Node.dir idx ch =>
        match childGet ch p with
        | some c =>
          let c' := removeFileFromJsonItemsNode c file
          if nodeTruthy c' = true then
            Node.dir idx (childSet ch p (removeWalk file (q :: rest) c'))
          else removeWalk file (q :: rest) (Node.dir idx (childSet ch p c'))
        | none => removeWalk file (q :: rest) (Node.dir idx ch)
      | other => removeWalk file (q :: rest) other) = Node.dir i Children.nil
    simpa using removeWalk_nilChildren file (q :: rest) i

theorem removeEmptyIdx (file : String) : removeFileFromJsonItems ⟨[], []⟩ file = ⟨[], []⟩ := by
  unfold removeFileFromJsonItems
  cases h : getVariantName file with
  | none => simp [spliceFindRemove]
  | some v => simp [variantsGet]

/-- Stores with one parsed document ingested at `a.json`, used to exhibit the
behavior of `remove` on paths with an absent intermediate segment. -/
def c3Store : Store :=
  (storeAdd (fun _ => ⟨"raw text", some "payload"⟩) emptyStore [] "" "a.json" ⟨false, false⟩).1

/-- Main sequence of the root level's index. -/
def rootMainDocs (st : Store) : List Doc :=
  match st.data with
  | .dir idx _ => idx.main
  | _ => []

/-- Counterexample to claim C3 as stated: removing `missing/a.json` from a
store that only holds `a.json` walks past the absent `missing` segment
without descending, so the final iteration deletes the sibling `a.json` at
the stalled level and the root index splice (whose `findIndex` misses and
yields `splice(-1, 1)`) drops the last `main` entry: the call is very much
not a no-op. -/
theorem claimC3_counterexample :
    intermediateAbsent c3Store.data (jsSplit '/' "missing/a.json") = true ∧
    storeGet c3Store "a.json" = .node (.doc ⟨"a.json", "payload"⟩) ∧
    rootMainDocs c3Store = [⟨"a.json", "payload"⟩] ∧
    storeGet (storeRemove c3Store "missing/a.json") "a.json" = .absent ∧
    rootMainDocs (storeRemove c3Store "missing/a.json") = [] :=
  ⟨rfl, rfl, rfl, rfl, rfl⟩

/-- Claim C3 as amended: `remove` never throws (it is a total operation: all
property reads are behind optional chaining), and `get` of a path with an
absent intermediate segment returns absent rather than raising; but `remove`
of such a path is only guaranteed to leave the store unchanged when the
levels the stalled walk visits hold no matching data at all — on the empty
store it is a no-op for every path without the reserved segment (paths that
contain `_json` would deface the reserved index property itself, which this
representation keeps structural). In general the stalled walk can delete a
same-named leaf at the wrong level and splice unrelated index entries, as
the counterexample shows. -/
theorem claimC3 :
    (∀ file, meetsPathRequirements (jsSplit '/' file) = true →
      storeRemove emptyStore file = emptyStore) ∧
    (∀ (st : Store) (file : String), "_json" ∉ jsSplit '/' file →
      intermediateAbsent st.data (jsSplit '/' file) = true →
      storeGet st file = .absent) := by
  constructor
  · intro file _hmeets
    show storeRemove ⟨.dir ⟨[], []⟩ .nil, storeDataSkeleton⟩ file = emptyStore
    unfold storeRemove
    show (⟨removeFileFromJsonItemsNode (removeWalk file (jsSplit '/' file)
        (Node.dir ⟨[], []⟩ .nil)) file, storeDataSkeleton⟩ : Store) = emptyStore
    rw [removeWalk_nilChildren]
    show (⟨.dir (removeFileFromJsonItems ⟨[], []⟩ file) .nil, storeDataSkeleton⟩ : Store) =
      emptyStore
    rw [removeEmptyIdx]
    rfl
  · intro st file hmem habs
    exact foldl_getStep_intermediate (jsSplit '/' file) st.data hmem habs

/-- Witness for claim C3 as amended. -/
theorem claimC3_witness :
    storeRemove emptyStore "x/y.json" = emptyStore ∧
    storeGet c3Store "missing/a.json" = .absent :=
  ⟨claimC3.1 "x/y.json" (by decide),
   claimC3.2 c3Store "missing/a.json" (by decide) (by decide)⟩

theorem addEffectiveContents_fresh (fs : String → FileContents) (c : CacheData) (p : String) :
    addEffectiveContents fs c p false = fs p := by
  unfold addEffectiveContents
  cases cacheGet c "file" p <;> rfl

/-- Claim C7: for a path already reachable through directory levels of the
live tree, `update(dir, P)` (remove then add with default options, which
bypass the cache) stores exactly what a fresh `add(dir, P)` on the empty
store stores, so `get(P)` returns equal content in both worlds. -/
theorem claimC7 (fs : String → FileContents) (st : Store) (c c2 : CacheData)
    (dataDir file : String)
    (h1 : file ≠ "") (h2 : meetsPathRequirements (jsSplit '/' file) = true)
    (h3 : properDirs st.data (jsSplit '/' file) = true) :
    storeGet (storeUpdate fs st c dataDir file).1 file =
      storeGet (storeAdd fs emptyStore c2 dataDir file ⟨false, false⟩).1 file := by
  have hne := jsSplit_ne_nil '/' file
  have hmem := meets_not_mem h2
  rcases hd : st.data with d | s | ⟨i, ch⟩
  · rw [hd, properDirs_doc] at h3
    exact Bool.noConfusion h3
  · rw [hd, properDirs_raw] at h3
    exact Bool.noConfusion h3
  · rw [hd] at h3
    rcases removeWalk_spec file (jsSplit '/' file) i ch h3 hne with ⟨ch2, hw2, _, ha2, _⟩
    have hrem : storeRemove st file =
        ⟨.dir (removeFileFromJsonItems i file) ch2, st.stage⟩ := by
      unfold storeRemove
      show (⟨removeFileFromJsonItemsNode (removeWalk file (jsSplit '/' file) st.data) file,
        st.stage⟩ : Store) = _
      rw [hd, hw2]
      rfl
    have ha3 : addPathOk (storeRemove st file).data (jsSplit '/' file) = true := by
      rw [hrem]
      show addPathOk (.dir (removeFileFromJsonItems i file) ch2) (jsSplit '/' file) = true
      rw [addPathOk_idxIrrel _ i]
      exact ha2
    rcases storeAdd_live_spec fs (storeRemove st file) c dataDir file false h1 h2 ha3 with
      ⟨iL, chL, heqL, hlL, _⟩
    have hskel : addPathOk emptyStore.data (jsSplit '/' file) = true :=
      addPathOk_nilChildren _ _
    rcases storeAdd_live_spec fs emptyStore c2 dataDir file false h1 h2 hskel with
      ⟨iR, chR, heqR, hlR, _⟩
    have hL := foldl_getStep_lookup (jsSplit '/' file) _ _ hmem hlL
    have hR := foldl_getStep_lookup (jsSplit '/' file) _ _ hmem hlR
    show storeGet (storeAdd fs (storeRemove st file) c dataDir file ⟨false, false⟩).1 file = _
    rw [heqL, heqR]
    show (jsSplit '/' file).foldl getStep (.node (.dir iL chL)) =
      (jsSplit '/' file).foldl getStep (.node (.dir iR chR))
    rw [hL, hR]
    unfold addStoredNode
    rw [addEffectiveContents_fresh, addEffectiveContents_fresh]

/-- Witness for claim C7 at a present path. -/
theorem claimC7_witness :
    storeGet (storeUpdate (fun _ => ⟨"raw", some "payload"⟩) c3Store [] "" "a.json").1 "a.json" =
      storeGet (storeAdd (fun _ => ⟨"raw", some "payload"⟩) emptyStore [] "" "a.json"
        ⟨false, false⟩).1 "a.json" :=
  claimC7 (fun _ => ⟨"raw", some "payload"⟩) c3Store [] [] "" "a.json"
    (by decide) (by decide) (by decide)

theorem stringEta (s : String) : (⟨s.data⟩ : String) = s := rfl

theorem jsSplitChars_noSep (sep : Char) : ∀ (cs : List Char), sep ∉ cs →
    jsSplitChars sep cs = [cs]
  | [], _ => rfl
  | c :: rest, h => by
    have hc : (c == sep) = false := by
      simp only [beq_eq_false_iff_ne, ne_eq]
      intro he
      exact h (he ▸ List.mem_cons_self c rest)
    unfold jsSplitChars
    rw [jsSplitChars_noSep sep rest (fun hm => h (List.mem_cons_of_mem _ hm))]
    simp [hc]

theorem jsSplitChars_append (sep : Char) : ∀ (a b : List Char), sep ∉ a →
    jsSplitChars sep (a ++ sep :: b) = a :: jsSplitChars sep b
  | [], b, _ => by
    show jsSplitChars sep (sep :: b) = [] :: jsSplitChars sep b
    conv_lhs => rw [jsSplitChars]
    simp
  | c :: a, b, h => by
    have hc : (c == sep) = false := by
      simp only [beq_eq_false_iff_ne, ne_eq]
      intro he
      exact h (he ▸ List.mem_cons_self c a)
    show jsSplitChars sep (c :: (a ++ sep :: b)) = (c :: a) :: jsSplitChars sep b
    conv_lhs => rw [jsSplitChars]
    rw [jsSplitChars_append sep a b (fun hm => h (List.mem_cons_of_mem _ hm))]
    simp [hc]

theorem jsSplit_two (queryId qs : String) (h1 : '?' ∉ queryId.data) :
    jsSplit '?' (queryId ++ "?" ++ qs) = [queryId] ++ jsSplit '?' qs := by
  unfold jsSplit
  have hdata : (queryId ++ "?" ++ qs).data = queryId.data ++ '?' :: qs.data := by
    simp [String.data_append]
  rw [hdata, jsSplitChars_append _ _ _ h1]
  simp [stringEta]

/-- Document of the query-include example of the spec: the reference value
sits at `data.content.relatedArticlesQueryInclude` and is declared in
`metadata.includes`. -/
def c8doc (v : String) : JVal := .obj [
  ("data", .obj [("content", .obj [("relatedArticlesQueryInclude", .str v)])]),
  ("metadata", .obj [("includes", .arr [.str "data.content.relatedArticlesQueryInclude"])])]

/-- Expected result of the dynamic pass on the example document: the query
result mounted at the alias `relatedArticles`, original reference key
removed. -/
def c8mounted (result : JVal) : JVal := .obj [
  ("data", .obj [("content", .obj [("relatedArticles", result)])]),
  ("metadata", .obj [("includes", .arr [.str "data.content.relatedArticlesQueryInclude"])])]

theorem jsSplit_noSep (sep : Char) (s : String) (h : sep ∉ s.data) :
    jsSplit sep s = [s] := by
  unfold jsSplit
  rw [jsSplitChars_noSep sep s.data h]
  simp [stringEta]

theorem processDynamicInclude_mounts (runQuery : String → List (String × JVal) → JVal)
    (doc : JVal) (includePath queryId qs : String)
    (hend : jsEndsWith (jsToLower includePath) "queryinclude" = true)
    (hget : getObjectValue doc includePath = some (.str (queryId ++ "?" ++ qs)))
    (h1 : '?' ∉ queryId.data) (h2 : '?' ∉ qs.data) (h3 : qs ≠ "")
    (hkey : (jsSplit '.' includePath).getLastD "" ≠ "") :
    processDynamicInclude runQuery doc includePath =
      aliasWithoutTypeIncludeParser
        ⟨doc, some (runQuery queryId (parseParams qs)),
         (jsSplit '.' includePath).dropLast,
         (jsSplit '.' includePath).getLastD ""⟩ "query" := by
  have hsplit : jsSplit '?' (queryId ++ "?" ++ qs) = [queryId, qs] := by
    rw [jsSplit_two _ _ h1, jsSplit_noSep _ _ h2]
    rfl
  unfold processDynamicInclude
  rw [if_pos hend, hget]
  show (if ((jsSplit '.' includePath).getLastD "" == "") = true then doc
      else aliasWithoutTypeIncludeParser
        ⟨doc,
         some (runQuery ((jsSplit '?' (queryId ++ "?" ++ qs)).headD "")
           (if ((jsSplit '?' (queryId ++ "?" ++ qs)).getD 1 "" == "") = true then []
            else parseParams ((jsSplit '?' (queryId ++ "?" ++ qs)).getD 1 ""))),
         (jsSplit '.' includePath).dropLast,
         (jsSplit '.' includePath).getLastD ""⟩ "query") =
      aliasWithoutTypeIncludeParser
        ⟨doc, some (runQuery queryId (parseParams qs)),
         (jsSplit '.' includePath).dropLast,
         (jsSplit '.' includePath).getLastD ""⟩ "query"
  rw [hsplit]
  show (if ((jsSplit '.' includePath).getLastD "" == "") = true then doc
      else aliasWithoutTypeIncludeParser
        ⟨doc, some (runQuery queryId (if (qs == "") = true then [] else parseParams qs)),
         (jsSplit '.' includePath).dropLast,
         (jsSplit '.' includePath).getLastD ""⟩ "query") =
      aliasWithoutTypeIncludeParser
        ⟨doc, some (runQuery queryId (parseParams qs)),
         (jsSplit '.' includePath).dropLast,
         (jsSplit '.' includePath).getLastD ""⟩ "query"
  rw [if_neg (show ¬(((jsSplit '.' includePath).getLastD "" == "") = true) from by
      simpa using hkey)]
  rw [if_neg (show ¬((qs == "") = true) from by simpa using h3)]

/-- Claim C8: for every reference path whose lower-cased form ends in
`queryinclude` (the source tests the whole path, of which the trailing
segment is the suffix) and every document holding the referenced string
`queryId ++ "?" ++ qs` at that path and declaring it, the dynamic pass splits
the referenced string at `?`, decodes the query string with `parseParams`,
invokes the query runner with exactly `(queryId, params)` — the runner is
universally quantified, so the mounted value pins the arguments it was
invoked with — and mounts the runner's result by the alias strategy; the
third conjunct unfolds that strategy: the result is placed at the mount point
under the reference key with its type tag and `Include` suffix stripped, and
the original reference key is removed, the key-removal semantics of static
includes. The last two conjuncts show the decoding rules: a parameter
occurring twice yields the sequence of its values, a parameter occurring once
yields its scalar value. -/
theorem claimC8 (runQuery : String → List (String × JVal) → JVal)
    (doc : JVal) (includePath queryId qs : String)
    (hend : jsEndsWith (jsToLower includePath) "queryinclude" = true)
    (hget : getObjectValue doc includePath = some (.str (queryId ++ "?" ++ qs)))
    (hdecl : declaredIncludes doc = [includePath])
    (h1 : '?' ∉ queryId.data) (h2 : '?' ∉ qs.data) (h3 : qs ≠ "")
    (hkey : (jsSplit '.' includePath).getLastD "" ≠ "") :
    dynamicRun runQuery doc =
      aliasWithoutTypeIncludeParser
        ⟨doc, some (runQuery queryId (parseParams qs)),
         (jsSplit '.' includePath).dropLast,
         (jsSplit '.' includePath).getLastD ""⟩ "query" ∧
    processDynamicInclude runQuery doc includePath =
      aliasWithoutTypeIncludeParser
        ⟨doc, some (runQuery queryId (parseParams qs)),
         (jsSplit '.' includePath).dropLast,
         (jsSplit '.' includePath).getLastD ""⟩ "query" ∧
    aliasWithoutTypeIncludeParser
        ⟨doc, some (runQuery queryId (parseParams qs)),
         (jsSplit '.' includePath).dropLast,
         (jsSplit '.' includePath).getLastD ""⟩ "query" =
      mountAt doc (jsSplit '.' includePath).dropLast (fun mp =>
        match mp with
        | .obj fields => .obj (jFieldsErase
            (jFieldsSet fields
              (⟨((jsSplit '.' includePath).getLastD "").data.take
                (((jsSplit '.' includePath).getLastD "").data.length -
                  ("query".data.length + 7))⟩ : String)
              (runQuery queryId (parseParams qs)))
            ((jsSplit '.' includePath).getLastD ""))
        | other => other) ∧
    parseParams "tag=foo&tag=bar" = [("tag", .arr [.str "foo", .str "bar"])] ∧
    parseParams "tag=foo&lang=en" = [("tag", .str "foo"), ("lang", .str "en")] := by
  have hmain := processDynamicInclude_mounts runQuery doc includePath queryId qs
    hend hget h1 h2 h3 hkey
  refine ⟨?_, hmain, rfl, rfl, rfl⟩
  show (declaredIncludes doc).foldl (processDynamicInclude runQuery) doc = _
  rw [hdecl]
  exact hmain

/-- Witness for claim C8 at the spec example: the reference path
`data.content.relatedArticlesQueryInclude` holds
`relatedArticles?tag=foo&tag=bar`; the runner result lands at the alias
`relatedArticles` with the reference key removed. -/
theorem claimC8_witness :
    dynamicRun (fun qid args => .obj [("q", .str qid), ("a", .obj args)])
      (c8doc ("relatedArticles" ++ "?" ++ "tag=foo&tag=bar")) =
      c8mounted ((fun (qid : String) (args : List (String × JVal)) =>
        JVal.obj [("q", .str qid), ("a", .obj args)]) "relatedArticles"
        (parseParams "tag=foo&tag=bar")) :=
  (claimC8 (fun qid args => .obj [("q", .str qid), ("a", .obj args)])
    (c8doc ("relatedArticles" ++ "?" ++ "tag=foo&tag=bar"))
    "data.content.relatedArticlesQueryInclude" "relatedArticles" "tag=foo&tag=bar"
    rfl rfl rfl (by decide) (by decide) (by decide) (by decide)).1

mutual
/-- Documents (parsed JSON leaves) contained in a subtree, in traversal
order. -/
def subtreeDocs : Node → List Doc
  | .doc d => [d]
  | .raw _ => []
  | .dir _ ch => subtreeDocsC ch

/-- Documents contained in a children list. -/
def subtreeDocsC : Children → List Doc
  | .nil => []
  | .cons _ n rest => subtreeDocs n ++ subtreeDocsC rest
end

/-- Variant of a document, per the naming convention on its `__FILENAME__`. -/
def docVariant (d : Doc) : Option String := getVariantName d.filename

/-- Whether a document belongs in the `main` sequence. -/
def isMainDoc (d : Doc) : Bool := (docVariant d).isNone

/-- Index correctness at one level with respect to the documents `ds` of the
subtree: `main` holds exactly the non-variant documents, every variant group
is nonempty and holds exactly the documents of its variant, and every variant
occurring among the documents has its group. -/
def indexOk (idx : Index) (ds : List Doc) : Bool :=
  decide (idx.main.Perm (ds.filter isMainDoc)) &&
  decide ((idx.variants.map Prod.fst).Nodup) &&
  idx.variants.all (fun p => !p.2.isEmpty &&
    decide (p.2.Perm (ds.filter (fun d => docVariant d == some p.1)))) &&
  ds.all (fun d => match docVariant d with
    | some v => (variantsGet idx.variants v).isSome
    | none => true)

mutual
/-- Coherence of a subtree rooted at path prefix `pre`: every document sits
at the path spelled by its `__FILENAME__`, sibling names are unique, and
every directory level's index satisfies `indexOk` for its subtree. -/
def coherentAt : List String → Node → Bool
  | pre, .doc d => jsSplit '/' d.filename == pre
  | _, .raw _ => true
  | pre, .dir idx ch =>
    decide ((childKeys ch).Nodup) && coherentChildren pre ch &&
      indexOk idx (subtreeDocsC ch)

/-- Coherence of every child of a level at path prefix `pre`. -/
def coherentChildren : List String → Children → Bool
  | _, .nil => true
  | pre, .cons k n rest => coherentAt (pre ++ [k]) n && coherentChildren pre rest
end

/-- Coherence of the live tree: the invariant of claim C2, stated for every
directory level at once. -/
def storeCoherent (st : Store) : Bool := coherentAt [] st.data

/-- Store operations of claim C2 (live-tree adds and removes). -/
inductive StoreOp where
  | add (dataDir file : String)
  | remove (file : String)

/-- Ingestion target condition: every proper prefix of the path is a
directory, absent, or a falsy raw value, and the final slot is absent or a
raw value — the add then neither throws nor overwrites an indexed document
or a whole subtree. -/
def addTargetOk : Node → List String → Bool
  | .dir _ ch, [last] =>
    (match childGet ch last with
     | none => true
     | some (.raw _) => true
     | some _ => false)
  | .dir _ ch, part :: rest =>
    (match childGet ch part with
     | none => true
     | some (.dir i c) => addTargetOk (.dir i c) rest
     | some (.raw s) => s == ""
     | some (.doc _) => false)
  | _, _ => false

/-- Removal target condition: the path currently holds a parsed document. -/
def removeTargetOk (n : Node) (parts : List String) : Bool :=
  match lookupPath n parts with
  | some (.doc _) => true
  | _ => false

/-- Validity of one operation against the current store. -/
def validOp (st : Store) : StoreOp → Bool
  | .add _ file => file != "" && meetsPathRequirements (jsSplit '/' file) &&
      addTargetOk st.data (jsSplit '/' file)
  | .remove file => meetsPathRequirements (jsSplit '/' file) &&
      removeTargetOk st.data (jsSplit '/' file)

/-- Application of one operation (live tree, default options). -/
def applyOp (fs : String → FileContents) (sc : Store × CacheData) :
    StoreOp → Store × CacheData
  | .add dataDir file =>
    ((storeAdd fs sc.1 sc.2 dataDir file ⟨false, false⟩).1,
     (storeAdd fs sc.1 sc.2 dataDir file ⟨false, false⟩).2.1)
  | .remove file => (storeRemove sc.1 file, sc.2)

/-- Application of a sequence of operations. -/
def applyOps (fs : String → FileContents) (sc : Store × CacheData) :
    List StoreOp → Store × CacheData
  | [] => sc
  | op :: rest => applyOps fs (applyOp fs sc op) rest

/-- Validity of a sequence of operations: each operation is valid against the
store state it runs on. -/
def validOps (fs : String → FileContents) (sc : Store × CacheData) :
    List StoreOp → Bool
  | [] => true
  | op :: rest => validOp sc.1 op && validOps fs (applyOp fs sc op) rest

/-- Store holding one parsed document at `x/a.json`. -/
def c2Store : Store :=
  (storeAdd (fun _ => ⟨"raw", some "payload"⟩) emptyStore [] "" "x/a.json" ⟨false, false⟩).1

/-- Counterexample to claim C2 as stated: the claim quantifies over any
sequence of add and remove operations, but removing the never-ingested path
`x/b.json` splices the root and `x` indexes with `splice(-1, 1)` after a
missed `findIndex`, so afterwards the document still ingested at `x/a.json`
appears in no `main` sequence: the level indexes no longer hold exactly the
documents ingested at or below them. -/
theorem claimC2_counterexample :
    storeCoherent c2Store = true ∧
    lookupPath (storeRemove c2Store "x/b.json").data (jsSplit '/' "x/a.json") =
      some (.doc ⟨"x/a.json", "payload"⟩) ∧
    rootMainDocs (storeRemove c2Store "x/b.json") = [] ∧
    storeCoherent (storeRemove c2Store "x/b.json") = false :=
  ⟨rfl, rfl, rfl, rfl⟩

theorem variantsGet_variantsSet_self (vs : List (String × List Doc)) (v : String)
    (ds : List Doc) : variantsGet (variantsSet vs v ds) v = some ds := by
  induction vs with
  | nil => simp [variantsSet, variantsGet]
  | cons q rest ih =>
    by_cases h : q.1 == v
    · simp [variantsSet, h, variantsGet]
    · simp only [variantsSet]
      rw [if_neg (by simpa using h)]
      simp [variantsGet, h, ih]

theorem variantsGet_variantsSet_ne (vs : List (String × List Doc)) (v w : String)
    (ds : List Doc) (h : w ≠ v) :
    variantsGet (variantsSet vs v ds) w = variantsGet vs w := by
  induction vs with
  | nil =>
    simp [variantsSet, variantsGet]
    intro he
    exact absurd he.symm h
  | cons q rest ih =>
    by_cases hq : q.1 == v
    · have hqv : q.1 = v := by simpa using hq
      simp only [variantsSet]
      rw [if_pos (by simpa using hq)]
      simp [variantsGet, hqv, Ne.symm h]
    · simp only [variantsSet]
      rw [if_neg (by simpa using hq)]
      simp [variantsGet, ih]

theorem variantsGet_variantsErase_self (vs : List (String × List Doc)) (v : String) :
    variantsGet (variantsErase vs v) v = none := by
  induction vs with
  | nil => simp [variantsErase, variantsGet]
  | cons q rest ih =>
    by_cases h : q.1 == v
    · simp only [variantsErase]
      rw [if_pos (by simpa using h)]
      exact ih
    · simp only [variantsErase]
      rw [if_neg (by simpa using h)]
      simp [variantsGet, h, ih]

theorem variantsGet_variantsErase_ne (vs : List (String × List Doc)) (v w : String)
    (h : w ≠ v) : variantsGet (variantsErase vs v) w = variantsGet vs w := by
  induction vs with
  | nil => simp [variantsErase, variantsGet]
  | cons q rest ih =>
    by_cases hq : q.1 == v
    · have hqv : q.1 = v := by simpa using hq
      simp only [variantsErase]
      rw [if_pos (by simpa using hq)]
      rw [ih]
      simp [variantsGet, hqv, Ne.symm h]
    · simp only [variantsErase]
      rw [if_neg (by simpa using hq)]
      simp [variantsGet, ih]

theorem variantsGet_eq_none_iff (vs : List (String × List Doc)) (v : String) :
    variantsGet vs v = none ↔ v ∉ vs.map Prod.fst := by
  induction vs with
  | nil => simp [variantsGet]
  | cons q rest ih =>
    by_cases h : q.1 == v
    · have : q.1 = v := by simpa using h
      simp [variantsGet, h, this]
    · have hne : q.1 ≠ v := by simpa using h
      simp [variantsGet, h, ih, Ne.symm hne]

theorem variantsGet_isSome_mem (vs : List (String × List Doc)) (v : String)
    (ds : List Doc) (h : variantsGet vs v = some ds) : v ∈ vs.map Prod.fst := by
  by_contra hm
  rw [← variantsGet_eq_none_iff] at hm
  rw [h] at hm
  exact Option.noConfusion hm

theorem varKeys_variantsSet_mem (vs : List (String × List Doc)) (v : String)
    (ds : List Doc) (h : v ∈ vs.map Prod.fst) :
    (variantsSet vs v ds).map Prod.fst = vs.map Prod.fst := by
  induction vs with
  | nil => simp at h
  | cons q rest ih =>
    by_cases hq : q.1 == v
    · simp only [variantsSet]
      rw [if_pos (by simpa using hq)]
      simp
    · have hne : q.1 ≠ v := by simpa using hq
      simp only [variantsSet]
      rw [if_neg (by simpa using hq)]
      simp only [List.map_cons]
      rw [ih (by simpa [Ne.symm hne] using h)]

theorem varKeys_variantsErase (vs : List (String × List Doc)) (v : String) :
    (variantsErase vs v).map Prod.fst = (vs.map Prod.fst).filter (fun k => k ≠ v) := by
  induction vs with
  | nil => simp [variantsErase]
  | cons q rest ih =>
    by_cases hq : q.1 == v
    · have hqv : q.1 = v := by simpa using hq
      simp only [variantsErase]
      rw [if_pos (by simpa using hq)]
      rw [ih]
      simp [hqv]
    · have hne : q.1 ≠ v := by simpa using hq
      simp only [variantsErase]
      rw [if_neg (by simpa using hq)]
      simp only [List.map_cons]
      rw [ih]
      simp [hne]

theorem mem_iff_variantsGet (vs : List (String × List Doc))
    (hn : (vs.map Prod.fst).Nodup) (p : String × List Doc) :
    p ∈ vs ↔ variantsGet vs p.1 = some p.2 := by
  induction vs with
  | nil => simp [variantsGet]
  | cons q rest ih =>
    simp only [List.map_cons, List.nodup_cons] at hn
    by_cases hq : q.1 == p.1
    · have hqp : q.1 = p.1 := by simpa using hq
      simp only [variantsGet, hq, if_true, List.mem_cons]
      constructor
      · rintro (he | hm)
        · rw [he]
        · exact absurd (hqp ▸ (List.mem_map_of_mem Prod.fst hm)) hn.1
      · intro he
        left
        have : q.2 = p.2 := by simpa using he
        cases p
        cases q
        simp_all
    · have hne : q.1 ≠ p.1 := by simpa using hq
      have hqf : (q.1 == p.1) = false := by simpa using hq
      simp only [variantsGet, hqf, Bool.false_eq_true, if_false, List.mem_cons]
      rw [← ih hn.2]
      constructor
      · rintro (he | hm)
        · rw [he] at hne
          exact absurd rfl hne
        · exact hm
      · exact fun hm => Or.inr hm

theorem variantsGet_append_left (vs ws : List (String × List Doc)) (v : String)
    (ds : List Doc) (h : variantsGet vs v = some ds) :
    variantsGet (vs ++ ws) v = some ds := by
  induction vs with
  | nil => simp [variantsGet] at h
  | cons q rest ih =>
    by_cases hq : q.1 == v
    · simp only [variantsGet, hq, if_true] at h ⊢
      exact h
    · simp only [variantsGet, hq, if_false] at h ⊢
      exact ih h

theorem variantsGet_append_right (vs ws : List (String × List Doc)) (v : String)
    (h : variantsGet vs v = none) :
    variantsGet (vs ++ ws) v = variantsGet ws v := by
  induction vs with
  | nil => simp
  | cons q rest ih =>
    by_cases hq : q.1 == v
    · simp [variantsGet, hq] at h
    · simp only [List.cons_append, variantsGet, hq, if_false] at h ⊢
      exact ih h

theorem childGet_eq_none_iff : ∀ (ch : Children) (k : String),
    childGet ch k = none ↔ k ∉ childKeys ch
  | .nil, k => by simp [childGet, childKeys]
  | .cons key n rest, k => by
    by_cases h : key == k
    · have : key = k := by simpa using h
      simp [childGet, childKeys, h, this]
    · have hne : key ≠ k := by simpa using h
      simp [childGet, childKeys, h, childGet_eq_none_iff rest k, Ne.symm hne]

theorem childKeys_childSet_some : ∀ (ch : Children) (k : String) (v : Node),
    k ∈ childKeys ch → childKeys (childSet ch k v) = childKeys ch
  | .nil, k, v, h => by simp [childKeys] at h
  | .cons key n rest, k, v, h => by
    by_cases hq : key == k
    · simp only [childSet]
      rw [if_pos hq]
      simp [childKeys]
    · have hne : key ≠ k := by simpa using hq
      simp only [childSet]
      rw [if_neg hq]
      simp only [childKeys]
      rw [childKeys_childSet_some rest k v (by simpa [childKeys, Ne.symm hne] using h)]

theorem childKeys_childSet_none : ∀ (ch : Children) (k : String) (v : Node),
    k ∉ childKeys ch → childKeys (childSet ch k v) = childKeys ch ++ [k]
  | .nil, k, v, h => by simp [childSet, childKeys]
  | .cons key n rest, k, v, h => by
    simp only [childKeys, List.mem_cons] at h
    push_neg at h
    by_cases hq : key == k
    · have : key = k := by simpa using hq
      exact absurd this.symm h.1
    · simp only [childSet]
      rw [if_neg hq]
      simp only [childKeys, List.cons_append]
      rw [childKeys_childSet_none rest k v h.2]

theorem permShuffle (a e r : List Doc) : (a ++ (e ++ r)).Perm (e ++ (a ++ r)) := by
  have h1 : a ++ (e ++ r) = (a ++ e) ++ r := (List.append_assoc a e r).symm
  have h2 : e ++ (a ++ r) = (e ++ a) ++ r := (List.append_assoc e a r).symm
  rw [h1, h2]
  exact List.perm_append_comm.append_right r

theorem coherentChildren_childGet : ∀ (pre : List String) (ch : Children) (k : String) (c : Node),
    coherentChildren pre ch = true → childGet ch k = some c →
    coherentAt (pre ++ [k]) c = true
  | _, .nil, _, _, _, hg => by simp [childGet] at hg
  | pre, .cons key n rest, k, c, hco, hg => by
    simp only [coherentChildren, Bool.and_eq_true] at hco
    by_cases h : key == k
    · have hkey : key = k := by simpa using h
      simp only [childGet, h, if_true] at hg
      have : n = c := by simpa using hg
      rw [← this, ← hkey]
      exact hco.1
    · simp only [childGet, h, Bool.false_eq_true, if_false] at hg
      exact coherentChildren_childGet pre rest k c hco.2 hg

theorem coherentChildren_childSet : ∀ (pre : List String) (ch : Children) (k : String) (v : Node),
    coherentChildren pre ch = true → coherentAt (pre ++ [k]) v = true →
    coherentChildren pre (childSet ch k v) = true
  | pre, .nil, k, v, _, hv => by
    simp [childSet, coherentChildren, hv]
  | pre, .cons key n rest, k, v, hco, hv => by
    simp only [coherentChildren, Bool.and_eq_true] at hco
    by_cases h : key == k
    · have hkey : key = k := by simpa using h
      simp only [childSet, h, if_true]
      simp only [coherentChildren, Bool.and_eq_true]
      exact ⟨by rw [hkey]; exact hv, hco.2⟩
    · simp only [childSet, h, Bool.false_eq_true, if_false]
      simp only [coherentChildren, Bool.and_eq_true]
      exact ⟨hco.1, coherentChildren_childSet pre rest k v hco.2 hv⟩

theorem subtreeDocsC_childSet_perm : ∀ (ch : Children) (k : String) (oldc newc : Node)
    (extra : List Doc), childGet ch k = some oldc →
    (subtreeDocs newc).Perm (extra ++ subtreeDocs oldc) →
    (subtreeDocsC (childSet ch k newc)).Perm (extra ++ subtreeDocsC ch)
  | .nil, _, _, _, _, hg, _ => by simp [childGet] at hg
  | .cons key n rest, k, oldc, newc, extra, hg, hperm => by
    by_cases h : key == k
    · simp only [childGet, h, if_true] at hg
      have hn : n = oldc := by simpa using hg
      simp only [childSet, h, if_true, subtreeDocsC]
      rw [hn]
      have p1 : (subtreeDocs newc ++ subtreeDocsC rest).Perm
          ((extra ++ subtreeDocs oldc) ++ subtreeDocsC rest) := hperm.append_right _
      have he : (extra ++ subtreeDocs oldc) ++ subtreeDocsC rest =
          extra ++ (subtreeDocs oldc ++ subtreeDocsC rest) := List.append_assoc _ _ _
      exact he ▸ p1
    · simp only [childGet, h, Bool.false_eq_true, if_false] at hg
      simp only [childSet, h, Bool.false_eq_true, if_false, subtreeDocsC]
      have p1 : (subtreeDocs n ++ subtreeDocsC (childSet rest k newc)).Perm
          (subtreeDocs n ++ (extra ++ subtreeDocsC rest)) :=
        (subtreeDocsC_childSet_perm rest k oldc newc extra hg hperm).append_left _
      exact p1.trans (permShuffle _ _ _)

theorem subtreeDocsC_childSet_perm_new : ∀ (ch : Children) (k : String) (newc : Node)
    (extra : List Doc), childGet ch k = none →
    (subtreeDocs newc).Perm extra →
    (subtreeDocsC (childSet ch k newc)).Perm (extra ++ subtreeDocsC ch)
  | .nil, k, newc, extra, _, hperm => by
    simp only [childSet, subtreeDocsC]
    simpa using hperm
  | .cons key n rest, k, newc, extra, hg, hperm => by
    by_cases h : key == k
    · simp [childGet, h] at hg
    · simp only [childGet, h, Bool.false_eq_true, if_false] at hg
      simp only [childSet, h, Bool.false_eq_true, if_false, subtreeDocsC]
      have p1 : (subtreeDocs n ++ subtreeDocsC (childSet rest k newc)).Perm
          (subtreeDocs n ++ (extra ++ subtreeDocsC rest)) :=
        (subtreeDocsC_childSet_perm_new rest k newc extra hg hperm).append_left _
      exact p1.trans (permShuffle _ _ _)

/-- Inverse of `jsSplitChars`: interleaves the separator back. -/
def joinChars (sep : Char) : List (List Char) → List Char
  | [] => []
  | [cs] => cs
  | cs :: rest => cs ++ sep :: joinChars sep rest

theorem joinChars_split (sep : Char) : ∀ (cs : List Char),
    joinChars sep (jsSplitChars sep cs) = cs
  | [] => rfl
  | c :: rest => by
    have ih := joinChars_split sep rest
    have hne := jsSplitChars_ne_nil sep rest
    rcases hr : jsSplitChars sep rest with _ | ⟨h, t⟩
    · exact absurd hr hne
    · rw [hr] at ih
      by_cases hc : (c == sep) = true
      · have hceq : c = sep := by simpa using hc
        conv_lhs => rw [jsSplitChars]
        rw [hr]
        simp only [hc, if_true]
        show sep :: joinChars sep (h :: t) = c :: rest
        rw [ih, hceq]
      · conv_lhs => rw [jsSplitChars]
        rw [hr]
        simp only [hc, Bool.false_eq_true, if_false]
        cases t with
        | nil =>
          show c :: h = c :: rest
          have : joinChars sep [h] = h := rfl
          rw [this] at ih
          rw [ih]
        | cons t0 ts =>
          show (c :: h) ++ sep :: joinChars sep (t0 :: ts) = c :: rest
          have : joinChars sep (h :: t0 :: ts) = h ++ sep :: joinChars sep (t0 :: ts) := rfl
          rw [this] at ih
          simpa using ih

theorem jsSplit_inj (sep : Char) (a b : String) (h : jsSplit sep a = jsSplit sep b) :
    a = b := by
  have hchars : jsSplitChars sep a.data = jsSplitChars sep b.data := by
    have hmap := congrArg (List.map String.data) h
    simp only [jsSplit, List.map_map] at hmap
    have hid : (String.data ∘ fun cs => (⟨cs⟩ : String)) = id := rfl
    rw [hid, List.map_id, List.map_id] at hmap
    exact hmap
  have hdata : a.data = b.data := by
    have := congrArg (joinChars sep) hchars
    rwa [joinChars_split, joinChars_split] at this
  cases a
  cases b
  exact congrArg String.mk hdata

mutual
theorem prefixNode : ∀ (pre : List String) (n : Node), coherentAt pre n = true →
    ∀ d ∈ subtreeDocs n, ∃ tail, jsSplit '/' d.filename = pre ++ tail
  | pre, .doc d0, hco, d, hd => by
    simp only [subtreeDocs, List.mem_singleton] at hd
    subst hd
    have hsp : jsSplit '/' d.filename = pre := by simpa [coherentAt] using hco
    exact ⟨[], by simpa using hsp⟩
  | _, .raw _, _, d, hd => by simp [subtreeDocs] at hd
  | pre, .dir i ch, hco, d, hd => by
    simp only [coherentAt, Bool.and_eq_true] at hco
    simp only [subtreeDocs] at hd
    rcases prefixChildren pre ch hco.1.2 d hd with ⟨k, _, tail, ht⟩
    exact ⟨k :: tail, ht⟩

theorem prefixChildren : ∀ (pre : List String) (ch : Children),
    coherentChildren pre ch = true →
    ∀ d ∈ subtreeDocsC ch, ∃ k, k ∈ childKeys ch ∧
      ∃ tail, jsSplit '/' d.filename = pre ++ k :: tail
  | _, .nil, _, d, hd => by simp [subtreeDocsC] at hd
  | pre, .cons key n rest, hco, d, hd => by
    simp only [coherentChildren, Bool.and_eq_true] at hco
    simp only [subtreeDocsC, List.mem_append] at hd
    rcases hd with hd | hd
    · rcases prefixNode (pre ++ [key]) n hco.1 d hd with ⟨tail, ht⟩
      refine ⟨key, by simp [childKeys], tail, ?_⟩
      rw [ht, List.append_assoc]
      rfl
    · rcases prefixChildren pre rest hco.2 d hd with ⟨k, hk, tail, ht⟩
      exact ⟨k, by simp [childKeys, hk], tail, ht⟩
end

mutual
theorem countNode : ∀ (pre : List String) (n : Node) (f : String), coherentAt pre n = true →
    (subtreeDocs n).countP (fun x => x.filename == f) ≤ 1
  | _, .doc d0, f, _ => by
    simp only [subtreeDocs, List.countP_cons, List.countP_nil]
    split <;> simp
  | _, .raw _, f, _ => by simp [subtreeDocs]
  | pre, .dir i ch, f, hco => by
    simp only [coherentAt, Bool.and_eq_true] at hco
    simp only [subtreeDocs]
    exact countChildren pre ch f hco.1.2 (by simpa using hco.1.1)

theorem countChildren : ∀ (pre : List String) (ch : Children) (f : String),
    coherentChildren pre ch = true → (childKeys ch).Nodup →
    (subtreeDocsC ch).countP (fun x => x.filename == f) ≤ 1
  | _, .nil, _, _, _ => by simp [subtreeDocsC]
  | pre, .cons key n rest, f, hco, hnd => by
    simp only [coherentChildren, Bool.and_eq_true] at hco
    have hnd' : key ∉ childKeys rest ∧ (childKeys rest).Nodup := by
      simpa [childKeys] using hnd
    have h1 := countNode (pre ++ [key]) n f hco.1
    have h2 := countChildren pre rest f hco.2 hnd'.2
    simp only [subtreeDocsC, List.countP_append]
    by_cases hb : 0 < (subtreeDocs n).countP (fun x => x.filename == f) ∧
        0 < (subtreeDocsC rest).countP (fun x => x.filename == f)
    · exfalso
      rcases List.countP_pos_iff.mp hb.1 with ⟨d1, hd1, hp1⟩
      rcases List.countP_pos_iff.mp hb.2 with ⟨d2, hd2, hp2⟩
      have hf1 : d1.filename = f := by simpa using hp1
      have hf2 : d2.filename = f := by simpa using hp2
      rcases prefixNode (pre ++ [key]) n hco.1 d1 hd1 with ⟨t1, ht1⟩
      rcases prefixChildren pre rest hco.2 d2 hd2 with ⟨k, hk, t2, ht2⟩
      rw [hf1] at ht1
      rw [hf2] at ht2
      rw [ht1] at ht2
      rw [List.append_assoc] at ht2
      have : ([key] ++ t1 : List String) = k :: t2 := List.append_cancel_left ht2
      have hkey : key = k := by simpa using congrArg (fun l => l.headD "") this
      exact hnd'.1 (hkey ▸ hk)
    · push_neg at hb
      rcases Nat.eq_zero_or_pos ((subtreeDocs n).countP (fun x => x.filename == f)) with hz | hp
      · omega
      · have := hb hp
        omega
end

theorem indexOk_iff (idx : Index) (ds : List Doc) :
    indexOk idx ds = true ↔
      idx.main.Perm (ds.filter isMainDoc) ∧
      (idx.variants.map Prod.fst).Nodup ∧
      (∀ p ∈ idx.variants, p.2 ≠ [] ∧
        p.2.Perm (ds.filter (fun d => docVariant d == some p.1))) ∧
      (∀ d ∈ ds, ∀ v, docVariant d = some v → (variantsGet idx.variants v).isSome = true) := by
  unfold indexOk
  simp only [Bool.and_eq_true, decide_eq_true_eq, List.all_eq_true]
  constructor
  · rintro ⟨⟨⟨h1, h2⟩, h3⟩, h4⟩
    refine ⟨h1, h2, ?_, ?_⟩
    · intro p hp
      have hh := h3 p hp
      simp only [Bool.and_eq_true, decide_eq_true_eq, Bool.not_eq_true'] at hh
      exact ⟨by simpa [List.isEmpty_iff] using hh.1, hh.2⟩
    · intro d hd v hv
      have hh := h4 d hd
      rw [hv] at hh
      simpa using hh
  · rintro ⟨h1, h2, h3, h4⟩
    refine ⟨⟨⟨h1, h2⟩, ?_⟩, ?_⟩
    · intro p hp
      simp only [Bool.and_eq_true, decide_eq_true_eq, Bool.not_eq_true']
      exact ⟨by simpa [List.isEmpty_iff] using (h3 p hp).1, (h3 p hp).2⟩
    · intro d hd
      cases hv : docVariant d with
      | none => rfl
      | some v => simpa using h4 d hd v hv

theorem indexOk_perm (idx : Index) (ds ds' : List Doc)
    (h : indexOk idx ds = true) (hp : ds.Perm ds') : indexOk idx ds' = true := by
  rw [indexOk_iff] at h ⊢
  obtain ⟨h1, h2, h3, h4⟩ := h
  exact ⟨h1.trans (hp.filter _), h2,
    fun p hpv => ⟨(h3 p hpv).1, (h3 p hpv).2.trans (hp.filter _)⟩,
    fun d hd v hv => h4 d (hp.mem_iff.mpr hd) v hv⟩

theorem countP_filter_le (ds : List Doc) (p q : Doc → Bool) :
    (ds.filter q).countP p ≤ ds.countP p := by
  induction ds with
  | nil => simp
  | cons x rest ih =>
    by_cases hq : q x = true
    · rw [List.filter_cons_of_pos hq]
      simp only [List.countP_cons]
      omega
    · rw [List.filter_cons_of_neg (by simpa using hq)]
      simp only [List.countP_cons]
      omega

theorem spliceFindRemove_perm : ∀ (ds : List Doc) (d : Doc) (file : String),
    d.filename = file → d ∈ ds →
    ds.countP (fun x => x.filename == file) ≤ 1 →
    (d :: spliceFindRemove ds file).Perm ds
  | [], d, file, _, hmem, _ => by simp at hmem
  | x :: rest, d, file, hd, hmem, huniq => by
    by_cases hx : (x.filename == file) = true
    · have hfind : (x :: rest).findIdx? (fun y => y.filename == file) = some 0 := by
        rw [List.findIdx?_cons]
        simp [hx]
      have hsplice : spliceFindRemove (x :: rest) file = rest := by
        unfold spliceFindRemove
        rw [hfind]
        rfl
      rw [hsplice]
      have hdx : d = x := by
        rcases List.mem_cons.mp hmem with he | hm
        · exact he
        · exfalso
          have hpos : 0 < rest.countP (fun y => y.filename == file) :=
            List.countP_pos_iff.mpr ⟨d, hm, by simp [hd]⟩
          have : (x :: rest).countP (fun y => y.filename == file) =
              rest.countP (fun y => y.filename == file) + 1 := by
            simp [List.countP_cons, hx]
          omega
      rw [hdx]
    · have hdx : d ≠ x := by
        intro he
        rw [← he, hd] at hx
        simp at hx
      have hm : d ∈ rest := by
        rcases List.mem_cons.mp hmem with he | hm
        · exact absurd he hdx
        · exact hm
      have huniq' : rest.countP (fun y => y.filename == file) ≤ 1 := by
        have : (x :: rest).countP (fun y => y.filename == file) =
            rest.countP (fun y => y.filename == file) := by
          simp [List.countP_cons, hx]
        omega
      rcases hr : rest.findIdx? (fun y => y.filename == file) with _ | i
      · exfalso
        have := List.findIdx?_eq_none_iff.mp hr
        have := this d hm
        simp [hd] at this
      · have hfind : (x :: rest).findIdx? (fun y => y.filename == file) = some (i + 1) := by
          rw [List.findIdx?_cons]
          simp only [hx, Bool.false_eq_true, if_false]
          rw [List.findIdx?_succ, hr]
          rfl
        have hsplice : spliceFindRemove (x :: rest) file = x :: spliceFindRemove rest file := by
          unfold spliceFindRemove
          rw [hfind, hr]
          simp [List.eraseIdx]
        rw [hsplice]
        have ih := spliceFindRemove_perm rest d file hd hm huniq'
        exact (List.Perm.swap x d _).trans (ih.cons x)

theorem indexAdd (idx : Index) (ds : List Doc) (d : Doc) (file : String)
    (hok : indexOk idx ds = true) (hd : d.filename = file) :
    indexOk (addFileToJsonItems idx file d) (d :: ds) = true := by
  rw [indexOk_iff] at hok
  obtain ⟨h1, h2, h3, h4⟩ := hok
  cases hv : getVariantName file with
  | none =>
    have hdv : docVariant d = none := by unfold docVariant; rw [hd]; exact hv
    have hdm : isMainDoc d = true := by simp [isMainDoc, hdv]
    have heq : addFileToJsonItems idx file d =
        { main := idx.main ++ [d], variants := idx.variants } := by
      unfold addFileToJsonItems
      rw [hv]
    rw [heq, indexOk_iff]
    refine ⟨?_, h2, ?_, ?_⟩
    · rw [List.filter_cons_of_pos hdm]
      exact (List.perm_append_singleton d idx.main).trans (h1.cons d)
    · intro p hp
      refine ⟨(h3 p hp).1, ?_⟩
      rw [List.filter_cons_of_neg (by simp [hdv])]
      exact (h3 p hp).2
    · intro d' hd' w hw
      rcases List.mem_cons.mp hd' with he | hm
      · rw [he, hdv] at hw
        exact Option.noConfusion hw
      · exact h4 d' hm w hw
  | some v =>
    have hdv : docVariant d = some v := by unfold docVariant; rw [hd]; exact hv
    have hdm : isMainDoc d = false := by simp [isMainDoc, hdv]
    cases hvg : variantsGet idx.variants v with
    | some docs =>
      have heq : addFileToJsonItems idx file d =
          { main := idx.main, variants := variantsSet idx.variants v (docs ++ [d]) } := by
        unfold addFileToJsonItems
        rw [hv]
        show (match variantsGet idx.variants v with
          | some ds => { main := idx.main, variants := variantsSet idx.variants v (ds ++ [d]) }
          | none => { main := idx.main, variants := idx.variants ++ [(v, [d])] } : Index) = _
        rw [hvg]
      rw [heq, indexOk_iff]
      have hkeys : (variantsSet idx.variants v (docs ++ [d])).map Prod.fst =
          idx.variants.map Prod.fst :=
        varKeys_variantsSet_mem _ _ _ (variantsGet_isSome_mem _ _ _ hvg)
      refine ⟨?_, by rw [hkeys]; exact h2, ?_, ?_⟩
      · rw [List.filter_cons_of_neg (by simp [hdm])]
        exact h1
      · intro p hp
        have hpget : variantsGet (variantsSet idx.variants v (docs ++ [d])) p.1 = some p.2 :=
          (mem_iff_variantsGet _ (by rw [hkeys]; exact h2) p).mp hp
        by_cases hpv : p.1 = v
        · rw [hpv, variantsGet_variantsSet_self] at hpget
          have hp2 : p.2 = docs ++ [d] := by simpa using hpget.symm
          have hmem_old : (v, docs) ∈ idx.variants :=
            (mem_iff_variantsGet _ h2 (v, docs)).mpr hvg
          have hold := h3 (v, docs) hmem_old
          refine ⟨by simp [hp2], ?_⟩
          rw [hp2, hpv, List.filter_cons_of_pos (by simp [hdv])]
          exact (List.perm_append_singleton _ _).trans (hold.2.cons d)
        · rw [variantsGet_variantsSet_ne _ _ _ _ hpv] at hpget
          have hpmem : p ∈ idx.variants := (mem_iff_variantsGet _ h2 p).mpr hpget
          refine ⟨(h3 p hpmem).1, ?_⟩
          rw [List.filter_cons_of_neg (by simp [hdv, Ne.symm hpv])]
          exact (h3 p hpmem).2
      · intro d' hd' w hw
        rcases List.mem_cons.mp hd' with he | hm
        · rw [he, hdv] at hw
          have hwv : v = w := by simpa using hw
          rw [← hwv, variantsGet_variantsSet_self]
          rfl
        · by_cases hwv : w = v
          · rw [hwv, variantsGet_variantsSet_self]
            rfl
          · rw [variantsGet_variantsSet_ne _ _ _ _ hwv]
            exact h4 d' hm w hw
    | none =>
      have heq : addFileToJsonItems idx file d =
          { main := idx.main, variants := idx.variants ++ [(v, [d])] } := by
        unfold addFileToJsonItems
        rw [hv]
        show (match variantsGet idx.variants v with
          | some ds => { main := idx.main, variants := variantsSet idx.variants v (ds ++ [d]) }
          | none => { main := idx.main, variants := idx.variants ++ [(v, [d])] } : Index) = _
        rw [hvg]
      rw [heq, indexOk_iff]
      have hvnot : v ∉ idx.variants.map Prod.fst := (variantsGet_eq_none_iff _ _).mp hvg
      have hfilter_nil : ds.filter (fun x => docVariant x == some v) = [] := by
        rw [List.filter_eq_nil_iff]
        intro d' hm hpred
        have hdv' : docVariant d' = some v := by simpa using hpred
        have hsome := h4 d' hm v hdv'
        rw [hvg] at hsome
        simp at hsome
      refine ⟨?_, ?_, ?_, ?_⟩
      · rw [List.filter_cons_of_neg (by simp [hdm])]
        exact h1
      · show ((idx.variants ++ [(v, [d])]).map Prod.fst).Nodup
        simp only [List.map_append, List.map_cons, List.map_nil]
        rw [List.nodup_append]
        exact ⟨h2, by simp, by simpa using hvnot⟩
      · intro p hp
        rcases List.mem_append.mp hp with hm | hm
        · have hp1 : p.1 ≠ v := fun he => hvnot (he ▸ List.mem_map_of_mem Prod.fst hm)
          refine ⟨(h3 p hm).1, ?_⟩
          rw [List.filter_cons_of_neg (by simp [hdv, Ne.symm hp1])]
          exact (h3 p hm).2
        · have hpe : p = (v, [d]) := by simpa using hm
          rw [hpe]
          refine ⟨by simp, ?_⟩
          show [d].Perm ((d :: ds).filter (fun x => docVariant x == some v))
          rw [List.filter_cons_of_pos (by simp [hdv]), hfilter_nil]
      · intro d' hd' w hw
        rcases List.mem_cons.mp hd' with he | hm
        · rw [he, hdv] at hw
          have hwv : v = w := by simpa using hw
          rw [← hwv]
          show (variantsGet (idx.variants ++ [(v, [d])]) v).isSome = true
          rw [variantsGet_append_right _ _ _ hvg]
          simp [variantsGet]
        · have hsome := h4 d' hm w hw
          rcases ho : variantsGet idx.variants w with _ | docs0
          · rw [ho] at hsome
            simp at hsome
          · show (variantsGet (idx.variants ++ [(v, [d])]) w).isSome = true
            rw [variantsGet_append_left _ _ _ _ ho]
            rfl

theorem indexRemove (idx : Index) (ds ds' : List Doc) (d : Doc) (file : String)
    (hok : indexOk idx ds = true) (hd : d.filename = file)
    (hperm : ds.Perm (d :: ds'))
    (huniq : ds.countP (fun x => x.filename == file) ≤ 1) :
    indexOk (removeFileFromJsonItems idx file) ds' = true := by
  rw [indexOk_iff] at hok
  obtain ⟨h1, h2, h3, h4⟩ := hok
  have hdmem : d ∈ ds := hperm.mem_iff.mpr (List.mem_cons_self d ds')
  have hmem_ds' : ∀ x ∈ ds', x ∈ ds := fun x hx =>
    hperm.mem_iff.mpr (List.mem_cons_of_mem d hx)
  cases hv : getVariantName file with
  | none =>
    have hdv : docVariant d = none := by unfold docVariant; rw [hd]; exact hv
    have hdm : isMainDoc d = true := by simp [isMainDoc, hdv]
    have heq : removeFileFromJsonItems idx file =
        { main := spliceFindRemove idx.main file, variants := idx.variants } := by
      unfold removeFileFromJsonItems
      rw [hv]
    rw [heq, indexOk_iff]
    have hdmain : d ∈ idx.main := h1.mem_iff.mpr (List.mem_filter.mpr ⟨hdmem, hdm⟩)
    have hcnt : idx.main.countP (fun x => x.filename == file) ≤ 1 := by
      have := h1.countP_eq (fun x => x.filename == file)
      rw [this]
      exact le_trans (countP_filter_le ds _ isMainDoc) huniq
    have hsplice := spliceFindRemove_perm idx.main d file hd hdmain hcnt
    have hfds : (ds.filter isMainDoc).Perm (d :: ds'.filter isMainDoc) := by
      have := hperm.filter isMainDoc
      rwa [List.filter_cons_of_pos hdm] at this
    refine ⟨?_, h2, ?_, ?_⟩
    · have hchain : (d :: spliceFindRemove idx.main file).Perm (d :: ds'.filter isMainDoc) :=
        hsplice.trans (h1.trans hfds)
      exact hchain.cons_inv
    · intro p hp
      refine ⟨(h3 p hp).1, ?_⟩
      have hstep : (ds.filter (fun x => docVariant x == some p.1)).Perm
          (ds'.filter (fun x => docVariant x == some p.1)) := by
        have := hperm.filter (fun x => docVariant x == some p.1)
        rwa [List.filter_cons_of_neg (by simp [hdv])] at this
      exact (h3 p hp).2.trans hstep
    · intro d' hm w hw
      exact h4 d' (hmem_ds' d' hm) w hw
  | some v =>
    have hdv : docVariant d = some v := by unfold docVariant; rw [hd]; exact hv
    have hdm : isMainDoc d = false := by simp [isMainDoc, hdv]
    have hmain_perm : (ds.filter isMainDoc).Perm (ds'.filter isMainDoc) := by
      have := hperm.filter isMainDoc
      rwa [List.filter_cons_of_neg (by simp [hdm])] at this
    have hfilter_other : ∀ (w : String), w ≠ v →
        (ds.filter (fun x => docVariant x == some w)).Perm
          (ds'.filter (fun x => docVariant x == some w)) := by
      intro w hwv
      have := hperm.filter (fun x => docVariant x == some w)
      rwa [List.filter_cons_of_neg (by simp [hdv, Ne.symm hwv])] at this
    have hfilter_v : (ds.filter (fun x => docVariant x == some v)).Perm
        (d :: ds'.filter (fun x => docVariant x == some v)) := by
      have := hperm.filter (fun x => docVariant x == some v)
      rwa [List.filter_cons_of_pos (by simp [hdv])] at this
    rcases hvg : variantsGet idx.variants v with _ | docs
    · exfalso
      have hsome := h4 d hdmem v hdv
      rw [hvg] at hsome
      simp at hsome
    · have hvmem : (v, docs) ∈ idx.variants := (mem_iff_variantsGet _ h2 (v, docs)).mpr hvg
      have hdocs := h3 (v, docs) hvmem
      have hddocs : d ∈ docs := hdocs.2.mem_iff.mpr
        (List.mem_filter.mpr ⟨hdmem, by simp [hdv]⟩)
      have hcnt : docs.countP (fun x => x.filename == file) ≤ 1 := by
        have := hdocs.2.countP_eq (fun x => x.filename == file)
        rw [this]
        exact le_trans (countP_filter_le ds _ _) huniq
      have hsplice := spliceFindRemove_perm docs d file hd hddocs hcnt
      have hsp_perm : (spliceFindRemove docs file).Perm
          (ds'.filter (fun x => docVariant x == some v)) := by
        have hchain : (d :: spliceFindRemove docs file).Perm
            (d :: ds'.filter (fun x => docVariant x == some v)) :=
          hsplice.trans (hdocs.2.trans hfilter_v)
        exact hchain.cons_inv
      by_cases hempty : (spliceFindRemove docs file).isEmpty = true
      · have hnil : spliceFindRemove docs file = [] := by simpa [List.isEmpty_iff] using hempty
        have hfil_nil : ds'.filter (fun x => docVariant x == some v) = [] := by
          have hq := hsp_perm
          rw [hnil] at hq
          exact hq.symm.eq_nil
        have heq : removeFileFromJsonItems idx file =
            { main := idx.main, variants := variantsErase idx.variants v } := by
          unfold removeFileFromJsonItems
          rw [hv]
          show (match variantsGet idx.variants v with
            | some ds =>
              let ds' := spliceFindRemove ds file
              if ds'.isEmpty then { main := idx.main, variants := variantsErase idx.variants v }
              else { main := idx.main, variants := variantsSet idx.variants v ds' }
            | none => idx : Index) = _
          rw [hvg]
          show (if (spliceFindRemove docs file).isEmpty then
              ({ main := idx.main, variants := variantsErase idx.variants v } : Index)
            else { main := idx.main, variants := variantsSet idx.variants v (spliceFindRemove docs file) }) = _
          rw [if_pos hempty]
        rw [heq, indexOk_iff]
        have hkeys_er : ((variantsErase idx.variants v).map Prod.fst).Nodup := by
          rw [varKeys_variantsErase]
          exact h2.filter _
        refine ⟨h1.trans hmain_perm, hkeys_er, ?_, ?_⟩
        · intro p hp
          have hpget : variantsGet (variantsErase idx.variants v) p.1 = some p.2 :=
            (mem_iff_variantsGet _ hkeys_er p).mp hp
          by_cases hpv : p.1 = v
          · rw [hpv, variantsGet_variantsErase_self] at hpget
            exact Option.noConfusion hpget
          · rw [variantsGet_variantsErase_ne _ _ _ hpv] at hpget
            have hpmem : p ∈ idx.variants := (mem_iff_variantsGet _ h2 p).mpr hpget
            exact ⟨(h3 p hpmem).1, (h3 p hpmem).2.trans (hfilter_other p.1 hpv)⟩
        · intro d' hm w hw
          by_cases hwv : w = v
          · exfalso
            have : d' ∈ ds'.filter (fun x => docVariant x == some v) :=
              List.mem_filter.mpr ⟨hm, by simp [hw, hwv]⟩
            rw [hfil_nil] at this
            simp at this
          · rw [variantsGet_variantsErase_ne _ _ _ hwv]
            exact h4 d' (hmem_ds' d' hm) w hw
      · have heq : removeFileFromJsonItems idx file =
            { main := idx.main,
              variants := variantsSet idx.variants v (spliceFindRemove docs file) } := by
          unfold removeFileFromJsonItems
          rw [hv]
          show (match variantsGet idx.variants v with
            | some ds =>
              let ds' := spliceFindRemove ds file
              if ds'.isEmpty then { main := idx.main, variants := variantsErase idx.variants v }
              else { main := idx.main, variants := variantsSet idx.variants v ds' }
            | none => idx : Index) = _
          rw [hvg]
          show (if (spliceFindRemove docs file).isEmpty then
              ({ main := idx.main, variants := variantsErase idx.variants v } : Index)
            else { main := idx.main, variants := variantsSet idx.variants v (spliceFindRemove docs file) }) = _
          rw [if_neg hempty]
        rw [heq, indexOk_iff]
        have hkeys : (variantsSet idx.variants v (spliceFindRemove docs file)).map Prod.fst =
            idx.variants.map Prod.fst :=
          varKeys_variantsSet_mem _ _ _ (variantsGet_isSome_mem _ _ _ hvg)
        refine ⟨h1.trans hmain_perm, by rw [hkeys]; exact h2, ?_, ?_⟩
        · intro p hp
          have hpget : variantsGet (variantsSet idx.variants v (spliceFindRemove docs file)) p.1 =
              some p.2 := (mem_iff_variantsGet _ (by rw [hkeys]; exact h2) p).mp hp
          by_cases hpv : p.1 = v
          · rw [hpv, variantsGet_variantsSet_self] at hpget
            have hp2 : p.2 = spliceFindRemove docs file := by simpa using hpget.symm
            refine ⟨?_, ?_⟩
            · rw [hp2]
              intro hnil
              rw [hnil] at hempty
              simp at hempty
            · rw [hp2, hpv]
              exact hsp_perm
          · rw [variantsGet_variantsSet_ne _ _ _ _ hpv] at hpget
            have hpmem : p ∈ idx.variants := (mem_iff_variantsGet _ h2 p).mpr hpget
            exact ⟨(h3 p hpmem).1, (h3 p hpmem).2.trans (hfilter_other p.1 hpv)⟩
        · intro d' hm w hw
          by_cases hwv : w = v
          · rw [hwv, variantsGet_variantsSet_self]
            rfl
          · rw [variantsGet_variantsSet_ne _ _ _ _ hwv]
            exact h4 d' (hmem_ds' d' hm) w hw

theorem addWalk_cons_def (file : String) (jsonDoc : Option Doc) (rawContents : String)
    (part next : String) (rest : List String) (i : Index) (ch : Children) :
    addWalk file jsonDoc rawContents (part :: next :: rest) (.dir i ch) =
      (match addFileToJsonItemsNode
          (match childGet ch part with
           | none => storeDataSkeleton
           | some (.raw s) => if s == "" then storeDataSkeleton else .raw s
           | some c => c) file jsonDoc with
       | (child2, some e) => (.dir i (childSet ch part child2), some e)
       | (child2, none) =>
         match child2 with
         | .dir i2 c2 =>
           (Node.dir i (childSet ch part
              (addWalk file jsonDoc rawContents (next :: rest) (.dir i2 c2)).1),
            (addWalk file jsonDoc rawContents (next :: rest) (.dir i2 c2)).2)
         | nonDir => (.dir i (childSet ch part nonDir),
             some "unmodelled: walk entered a non-directory value")) := rfl

theorem removeWalk_cons_def (file part next : String) (rest : List String)
    (i : Index) (ch : Children) :
    removeWalk file (part :: next :: rest) (.dir i ch) =
      (match childGet ch part with
       | some c =>
         if nodeTruthy (removeFileFromJsonItemsNode c file) then
           .dir i (childSet ch part
             (removeWalk file (next :: rest) (removeFileFromJsonItemsNode c file)))
         else removeWalk file (next :: rest)
           (.dir i (childSet ch part (removeFileFromJsonItemsNode c file)))
       | none => removeWalk file (next :: rest) (.dir i ch)) := rfl

theorem addTargetOk_idxIrrel (i i' : Index) (ch : Children) : ∀ (parts : List String),
    addTargetOk (.dir i ch) parts = addTargetOk (.dir i' ch) parts
  | [] => rfl
  | [_] => rfl
  | _ :: _ :: _ => rfl

theorem addTargetOk_nilChildren (i : Index) : ∀ (parts : List String), parts ≠ [] →
    addTargetOk (.dir i .nil) parts = true
  | [], h => absurd rfl h
  | [_], _ => rfl
  | _ :: _ :: _, _ => rfl

theorem childGet_some_mem (ch : Children) (k : String) (c : Node)
    (h : childGet ch k = some c) : k ∈ childKeys ch := by
  by_contra hm
  rw [← childGet_eq_none_iff] at hm
  rw [h] at hm
  exact Option.noConfusion hm

theorem childKeys_childErase : ∀ (ch : Children) (k : String),
    childKeys (childErase ch k) = (childKeys ch).filter (fun x => x ≠ k)
  | .nil, _ => rfl
  | .cons key n rest, k => by
    by_cases h : key == k
    · have hkey : key = k := by simpa using h
      simp only [childErase]
      rw [if_pos h, childKeys_childErase rest k]
      simp [childKeys, hkey]
    · have hne : key ≠ k := by simpa using h
      simp only [childErase]
      rw [if_neg h]
      simp only [childKeys]
      rw [childKeys_childErase rest k]
      simp [hne]

theorem coherentChildren_childErase : ∀ (pre : List String) (ch : Children) (k : String),
    coherentChildren pre ch = true → coherentChildren pre (childErase ch k) = true
  | _, .nil, _, _ => rfl
  | pre, .cons key n rest, k, hco => by
    simp only [coherentChildren, Bool.and_eq_true] at hco
    by_cases h : key == k
    · simp only [childErase]
      rw [if_pos h]
      exact coherentChildren_childErase pre rest k hco.2
    · simp only [childErase]
      rw [if_neg h]
      simp only [coherentChildren, Bool.and_eq_true]
      exact ⟨hco.1, coherentChildren_childErase pre rest k hco.2⟩

theorem childErase_not_mem : ∀ (ch : Children) (k : String),
    k ∉ childKeys ch → childErase ch k = ch
  | .nil, _, _ => rfl
  | .cons key n rest, k, h => by
    simp only [childKeys, List.mem_cons] at h
    push_neg at h
    have hne : (key == k) = false := by simpa using (fun he => h.1 he.symm : ¬ key = k)
    simp only [childErase]
    rw [if_neg (by simp [hne])]
    rw [childErase_not_mem rest k h.2]

theorem subtreeDocsC_childErase_perm : ∀ (ch : Children) (k : String) (c : Node),
    childGet ch k = some c → (childKeys ch).Nodup →
    (subtreeDocsC ch).Perm (subtreeDocs c ++ subtreeDocsC (childErase ch k))
  | .nil, _, _, hg, _ => by simp [childGet] at hg
  | .cons key n rest, k, c, hg, hnd => by
    have hnd' : key ∉ childKeys rest ∧ (childKeys rest).Nodup := by
      simpa [childKeys] using hnd
    by_cases h : key == k
    · have hkey : key = k := by simpa using h
      simp only [childGet, h, if_true] at hg
      have hc : n = c := by simpa using hg
      simp only [childErase]
      rw [if_pos h, childErase_not_mem rest k (hkey ▸ hnd'.1)]
      rw [hc]
      simp [subtreeDocsC]
    · simp only [childGet, h, Bool.false_eq_true, if_false] at hg
      simp only [childErase]
      rw [if_neg h]
      simp only [subtreeDocsC]
      have ih := subtreeDocsC_childErase_perm rest k c hg hnd'.2
      exact (ih.append_left (subtreeDocs n)).trans (permShuffle _ _ _)

theorem subtreeDocsC_childSet_exchange : ∀ (ch : Children) (k : String) (oldc newc : Node),
    childGet ch k = some oldc →
    (subtreeDocsC (childSet ch k newc) ++ subtreeDocs oldc).Perm
      (subtreeDocs newc ++ subtreeDocsC ch)
  | .nil, _, _, _, hg => by simp [childGet] at hg
  | .cons key n rest, k, oldc, newc, hg => by
    by_cases h : key == k
    · simp only [childGet, h, if_true] at hg
      have hc : n = oldc := by simpa using hg
      simp only [childSet, h, if_true, subtreeDocsC]
      rw [← hc]
      have he : (subtreeDocs newc ++ subtreeDocsC rest) ++ subtreeDocs n =
          subtreeDocs newc ++ (subtreeDocsC rest ++ subtreeDocs n) := List.append_assoc _ _ _
      rw [he]
      exact List.Perm.append_left _ List.perm_append_comm
    · simp only [childGet, h, Bool.false_eq_true, if_false] at hg
      simp only [childSet, h, Bool.false_eq_true, if_false, subtreeDocsC]
      have ih := subtreeDocsC_childSet_exchange rest k oldc newc hg
      have he : (subtreeDocs n ++ subtreeDocsC (childSet rest k newc)) ++ subtreeDocs oldc =
          subtreeDocs n ++ (subtreeDocsC (childSet rest k newc) ++ subtreeDocs oldc) :=
        List.append_assoc _ _ _
      rw [he]
      exact ((ih.append_left (subtreeDocs n)).trans (permShuffle _ _ _))

theorem indexOk_nil : indexOk ⟨[], []⟩ [] = true := by decide

theorem skeletonPushOk (file : String) (jsonDoc : Option Doc)
    (hjd : ∀ d0, jsonDoc = some d0 → d0.filename = file) :
    ∃ i2, addFileToJsonItemsNode storeDataSkeleton file jsonDoc = (Node.dir i2 .nil, none) ∧
      indexOk i2 jsonDoc.toList = true := by
  cases jsonDoc with
  | none => exact ⟨⟨[], []⟩, rfl, indexOk_nil⟩
  | some d => exact ⟨_, rfl, by simpa using indexAdd ⟨[], []⟩ [] d file indexOk_nil (hjd d rfl)⟩

theorem dirPushOk (file : String) (jsonDoc : Option Doc) (i0 : Index) (c0 : Children)
    (ds : List Doc) (hok : indexOk i0 ds = true)
    (hjd : ∀ d0, jsonDoc = some d0 → d0.filename = file) :
    ∃ i2, addFileToJsonItemsNode (.dir i0 c0) file jsonDoc = (Node.dir i2 c0, none) ∧
      indexOk i2 (jsonDoc.toList ++ ds) = true := by
  cases jsonDoc with
  | none => exact ⟨i0, rfl, by simpa using hok⟩
  | some d => exact ⟨_, rfl, by simpa using indexAdd i0 ds d file hok (hjd d rfl)⟩

theorem addWalk_coherent (file : String) (jsonDoc : Option Doc) (rawContents : String)
    (hjd : ∀ d0, jsonDoc = some d0 → d0.filename = file) :
    ∀ (parts pre : List String) (i : Index) (ch : Children),
    addTargetOk (.dir i ch) parts = true →
    jsSplit '/' file = pre ++ parts → parts ≠ [] →
    (childKeys ch).Nodup → coherentChildren pre ch = true →
    ∃ ch', addWalk file jsonDoc rawContents parts (.dir i ch) = (.dir i ch', none) ∧
      (childKeys ch').Nodup ∧
      coherentChildren pre ch' = true ∧
      (subtreeDocsC ch').Perm (jsonDoc.toList ++ subtreeDocsC ch)
  | [], _, _, _, _, _, hne, _, _ => absurd rfl hne
  | [last], pre, i, ch, htg, hsplit, _, hnd, hco => by
    unfold addTargetOk at htg
    have hleafco : coherentAt (pre ++ [last]) (leafValue jsonDoc rawContents) = true := by
      cases hj : jsonDoc with
      | none => rfl
      | some d0 =>
        show (jsSplit '/' d0.filename == pre ++ [last]) = true
        rw [hjd d0 hj, hsplit]
        simp
    have hdocs_leaf : subtreeDocs (leafValue jsonDoc rawContents) = jsonDoc.toList := by
      cases jsonDoc <;> rfl
    refine ⟨childSet ch last (leafValue jsonDoc rawContents), rfl, ?_,
      coherentChildren_childSet pre ch last _ hco hleafco, ?_⟩
    · rcases hg : childGet ch last with _ | c
      · rw [childKeys_childSet_none ch last _ ((childGet_eq_none_iff ch last).mp hg),
          List.nodup_append]
        exact ⟨hnd, by simp, by simpa using (childGet_eq_none_iff ch last).mp hg⟩
      · rw [childKeys_childSet_some ch last _ (childGet_some_mem ch last c hg)]
        exact hnd
    · rcases hg : childGet ch last with _ | c
      · exact subtreeDocsC_childSet_perm_new ch last (leafValue jsonDoc rawContents)
          jsonDoc.toList hg (by rw [hdocs_leaf])
      · cases c with
        | doc d0 =>
          rw [hg] at htg
          simp at htg
        | dir i0 c0 =>
          rw [hg] at htg
          simp at htg
        | raw s =>
          exact subtreeDocsC_childSet_perm ch last (.raw s) (leafValue jsonDoc rawContents)
            jsonDoc.toList hg (by rw [hdocs_leaf]; simp [subtreeDocs])
  | part :: next :: rest, pre, i, ch, htg, hsplit, _, hnd, hco => by
    unfold addTargetOk at htg
    have hsplit' : jsSplit '/' file = (pre ++ [part]) ++ (next :: rest) := by
      rw [hsplit, List.append_assoc]
      rfl
    rcases hg : childGet ch part with _ | c
    · rcases skeletonPushOk file jsonDoc hjd with ⟨i2, hpush, hok2⟩
      rcases addWalk_coherent file jsonDoc rawContents hjd (next :: rest) (pre ++ [part]) i2 .nil
          (addTargetOk_nilChildren i2 _ (by simp)) hsplit' (by simp) (by simp [childKeys]) rfl
        with ⟨ch3, hw, hnd3, hco3, hdp3⟩
      rw [show subtreeDocsC Children.nil = [] from rfl, List.append_nil] at hdp3
      refine ⟨childSet ch part (.dir i2 ch3), ?_, ?_, ?_, ?_⟩
      · simp only [addWalk_cons_def, hg, hpush, hw]
      · rw [childKeys_childSet_none ch part _ ((childGet_eq_none_iff ch part).mp hg),
          List.nodup_append]
        exact ⟨hnd, by simp, by simpa using (childGet_eq_none_iff ch part).mp hg⟩
      · apply coherentChildren_childSet pre ch part _ hco
        show coherentAt (pre ++ [part]) (.dir i2 ch3) = true
        simp only [coherentAt, Bool.and_eq_true]
        refine ⟨⟨by simpa using hnd3, hco3⟩, ?_⟩
        exact indexOk_perm i2 _ _ hok2 hdp3.symm
      · exact subtreeDocsC_childSet_perm_new ch part (.dir i2 ch3) jsonDoc.toList hg hdp3
    · cases c with
      | doc d0 =>
        rw [hg] at htg
        simp at htg
      | raw s =>
        rw [hg] at htg
        have hs : (s == "") = true := by simpa using htg
        rcases skeletonPushOk file jsonDoc hjd with ⟨i2, hpush, hok2⟩
        rcases addWalk_coherent file jsonDoc rawContents hjd (next :: rest) (pre ++ [part]) i2 .nil
            (addTargetOk_nilChildren i2 _ (by simp)) hsplit' (by simp) (by simp [childKeys]) rfl
          with ⟨ch3, hw, hnd3, hco3, hdp3⟩
        rw [show subtreeDocsC Children.nil = [] from rfl, List.append_nil] at hdp3
        refine ⟨childSet ch part (.dir i2 ch3), ?_, ?_, ?_, ?_⟩
        · simp only [addWalk_cons_def, hg, hs, if_true, hpush, hw]
        · rw [childKeys_childSet_some ch part _ (childGet_some_mem ch part _ hg)]
          exact hnd
        · apply coherentChildren_childSet pre ch part _ hco
          show coherentAt (pre ++ [part]) (.dir i2 ch3) = true
          simp only [coherentAt, Bool.and_eq_true]
          refine ⟨⟨by simpa using hnd3, hco3⟩, ?_⟩
          exact indexOk_perm i2 _ _ hok2 hdp3.symm
        · exact subtreeDocsC_childSet_perm ch part (.raw s) (.dir i2 ch3) jsonDoc.toList hg
            (by simpa [subtreeDocs] using hdp3)
      | dir i0 c0 =>
        rw [hg] at htg
        have htg0 : addTargetOk (.dir i0 c0) (next :: rest) = true := by simpa using htg
        have hchildco := coherentChildren_childGet pre ch part _ hco hg
        simp only [coherentAt, Bool.and_eq_true] at hchildco
        rcases dirPushOk file jsonDoc i0 c0 (subtreeDocsC c0) hchildco.2 hjd with
          ⟨i2, hpush, hok2⟩
        have htg2 : addTargetOk (.dir i2 c0) (next :: rest) = true := by
          rw [addTargetOk_idxIrrel i2 i0]
          exact htg0
        rcases addWalk_coherent file jsonDoc rawContents hjd (next :: rest) (pre ++ [part]) i2 c0
            htg2 hsplit' (by simp) (by simpa using hchildco.1.1) hchildco.1.2
          with ⟨ch3, hw, hnd3, hco3, hdp3⟩
        refine ⟨childSet ch part (.dir i2 ch3), ?_, ?_, ?_, ?_⟩
        · simp only [addWalk_cons_def, hg, hpush, hw]
        · rw [childKeys_childSet_some ch part _ (childGet_some_mem ch part _ hg)]
          exact hnd
        · apply coherentChildren_childSet pre ch part _ hco
          show coherentAt (pre ++ [part]) (.dir i2 ch3) = true
          simp only [coherentAt, Bool.and_eq_true]
          exact ⟨⟨by simpa using hnd3, hco3⟩, indexOk_perm i2 _ _ hok2 hdp3.symm⟩
        · exact subtreeDocsC_childSet_perm ch part (.dir i0 c0) (.dir i2 ch3) jsonDoc.toList hg
            (by simpa [subtreeDocs] using hdp3)

theorem removeWalk_coherent (file : String) :
    ∀ (parts pre : List String) (i : Index) (ch : Children) (d : Doc),
    lookupPath (.dir i ch) parts = some (.doc d) →
    d.filename = file →
    (childKeys ch).Nodup → coherentChildren pre ch = true →
    ∃ ch', removeWalk file parts (.dir i ch) = .dir i ch' ∧
      (childKeys ch').Nodup ∧
      coherentChildren pre ch' = true ∧
      (subtreeDocsC ch).Perm (d :: subtreeDocsC ch')
  | [], _, _, _, _, hl, _, _, _ => by simp [lookupPath] at hl
  | [last], pre, i, ch, d, hl, hdf, hnd, hco => by
    simp only [lookupPath] at hl
    rcases hg : childGet ch last with _ | c
    · rw [hg] at hl
      simp at hl
    · rw [hg] at hl
      have hc : c = .doc d := by simpa using hl
      subst hc
      refine ⟨childErase ch last, rfl, ?_, coherentChildren_childErase pre ch last hco, ?_⟩
      · rw [childKeys_childErase]
        exact hnd.filter _
      · have := subtreeDocsC_childErase_perm ch last (.doc d) hg hnd
        simpa [subtreeDocs] using this
  | part :: next :: rest, pre, i, ch, d, hl, hdf, hnd, hco => by
    simp only [lookupPath] at hl
    rcases hg : childGet ch part with _ | c
    · rw [hg] at hl
      simp at hl
    · rw [hg, Option.some_bind] at hl
      cases c with
      | doc d0 => simp [lookupPath] at hl
      | raw s => simp [lookupPath] at hl
      | dir i0 c0 =>
        have hchildco := coherentChildren_childGet pre ch part _ hco hg
        simp only [coherentAt, Bool.and_eq_true, decide_eq_true_eq] at hchildco
        have huniq := countChildren (pre ++ [part]) c0 file hchildco.1.2 hchildco.1.1
        have hl2 : lookupPath (.dir (removeFileFromJsonItems i0 file) c0) (next :: rest) =
            some (.doc d) := by
          rw [lookupPath_idxIrrel _ i0 c0 _ (by simp)]
          exact hl
        rcases removeWalk_coherent file (next :: rest) (pre ++ [part])
            (removeFileFromJsonItems i0 file) c0 d hl2 hdf hchildco.1.1 hchildco.1.2
          with ⟨ch2, hw, hnd2, hco2, hdp2⟩
        have hok2 : indexOk (removeFileFromJsonItems i0 file) (subtreeDocsC ch2) = true :=
          indexRemove i0 (subtreeDocsC c0) (subtreeDocsC ch2) d file hchildco.2 hdf hdp2 huniq
        refine ⟨childSet ch part (.dir (removeFileFromJsonItems i0 file) ch2), ?_, ?_, ?_, ?_⟩
        · simp only [removeWalk_cons_def, hg, removeFileFromJsonItemsNode, nodeTruthy,
            if_true, hw]
        · rw [childKeys_childSet_some ch part _ (childGet_some_mem ch part _ hg)]
          exact hnd
        · apply coherentChildren_childSet pre ch part _ hco
          show coherentAt (pre ++ [part]) (.dir (removeFileFromJsonItems i0 file) ch2) = true
          simp only [coherentAt, Bool.and_eq_true, decide_eq_true_eq]
          exact ⟨⟨hnd2, hco2⟩, hok2⟩
        · have hex := subtreeDocsC_childSet_exchange ch part (.dir i0 c0)
            (.dir (removeFileFromJsonItems i0 file) ch2) hg
          simp only [subtreeDocs] at hex
          have hb : (subtreeDocsC (childSet ch part (.dir (removeFileFromJsonItems i0 file) ch2))
              ++ subtreeDocsC c0).Perm
              (subtreeDocsC (childSet ch part (.dir (removeFileFromJsonItems i0 file) ch2))
                ++ (d :: subtreeDocsC ch2)) :=
            hdp2.append_left _
          have hc : (subtreeDocsC (childSet ch part (.dir (removeFileFromJsonItems i0 file) ch2))
              ++ (d :: subtreeDocsC ch2)).Perm
              (d :: (subtreeDocsC (childSet ch part (.dir (removeFileFromJsonItems i0 file) ch2))
                ++ subtreeDocsC ch2)) :=
            List.perm_middle
          have h1 : ((d :: subtreeDocsC (childSet ch part
              (.dir (removeFileFromJsonItems i0 file) ch2))) ++ subtreeDocsC ch2).Perm
              (subtreeDocsC ch ++ subtreeDocsC ch2) :=
            ((hc.symm.trans hb.symm).trans hex).trans List.perm_append_comm
          exact ((List.perm_append_right_iff _).mp h1).symm

theorem addTargetOk_doc (d : Doc) : ∀ (parts : List String),
    addTargetOk (.doc d) parts = false
  | [] => rfl
  | [_] => rfl
  | _ :: _ :: _ => rfl

theorem addTargetOk_raw (s : String) : ∀ (parts : List String),
    addTargetOk (.raw s) parts = false
  | [] => rfl
  | [_] => rfl
  | _ :: _ :: _ => rfl

theorem removeTargetOk_spec (n : Node) (parts : List String)
    (h : removeTargetOk n parts = true) : ∃ d, lookupPath n parts = some (.doc d) := by
  unfold removeTargetOk at h
  rcases hlk : lookupPath n parts with _ | c
  · rw [hlk] at h
    simp at h
  · rw [hlk] at h
    cases c with
    | doc d => exact ⟨d, rfl⟩
    | raw s => simp at h
    | dir i ch => simp at h

theorem lookupPath_doc_filename : ∀ (parts pre : List String) (n : Node) (d : Doc),
    coherentAt pre n = true → lookupPath n parts = some (.doc d) →
    jsSplit '/' d.filename = pre ++ parts
  | [], pre, n, d, hco, hl => by
    have hn : n = .doc d := by simpa [lookupPath] using hl
    subst hn
    have hb : (jsSplit '/' d.filename == pre) = true := by simpa [coherentAt] using hco
    rw [List.append_nil]
    simpa using hb
  | seg :: rest, pre, n, d, hco, hl => by
    rcases n with d0 | s | ⟨i, ch⟩
    · simp [lookupPath] at hl
    · simp [lookupPath] at hl
    · simp only [lookupPath] at hl
      rcases hg : childGet ch seg with _ | c
      · rw [hg] at hl
        simp at hl
      · rw [hg, Option.some_bind] at hl
        simp only [coherentAt, Bool.and_eq_true, decide_eq_true_eq] at hco
        have hcc := coherentChildren_childGet pre ch seg c hco.1.2 hg
        have hrec := lookupPath_doc_filename rest (pre ++ [seg]) c d hcc hl
        rw [hrec, List.append_assoc]
        rfl

theorem coherent_add (fs : String → FileContents) (st : Store) (c : CacheData)
    (dataDir file : String)
    (h1 : file ≠ "") (h2 : meetsPathRequirements (jsSplit '/' file) = true)
    (htg : addTargetOk st.data (jsSplit '/' file) = true)
    (hco : storeCoherent st = true) :
    storeCoherent (storeAdd fs st c dataDir file ⟨false, false⟩).1 = true := by
  have hne := jsSplit_ne_nil '/' file
  rcases hd : st.data with d | s | ⟨i, ch⟩
  · rw [hd, addTargetOk_doc] at htg
    exact Bool.noConfusion htg
  · rw [hd, addTargetOk_raw] at htg
    exact Bool.noConfusion htg
  · rw [hd] at htg
    have hcoB : coherentAt [] (.dir i ch) = true := by
      unfold storeCoherent at hco
      rw [hd] at hco
      exact hco
    simp only [coherentAt, Bool.and_eq_true, decide_eq_true_eq] at hcoB
    have hjd : ∀ d0, (addEffectiveContents fs c (jsJoin dataDir file) false).json.map
        (fun payload => Doc.mk file payload) = some d0 → d0.filename = file := by
      intro d0 h
      rcases hj : (addEffectiveContents fs c (jsJoin dataDir file) false).json with _ | p
      · rw [hj] at h
        simp at h
      · rw [hj] at h
        have hh : Doc.mk file p = d0 := by simpa using h
        rw [← hh]
    rcases addWalk_coherent file
        (Option.map (fun payload => Doc.mk file payload)
          (addEffectiveContents fs c (jsJoin dataDir file) false).json)
        (addEffectiveContents fs c (jsJoin dataDir file) false).raw
        hjd (jsSplit '/' file) [] i ch htg rfl hne
        hcoB.1.1 hcoB.1.2 with ⟨ch', hw, hnd', hco', hdp'⟩
    rcases dirPushOk file
        (Option.map (fun payload => Doc.mk file payload)
          (addEffectiveContents fs c (jsJoin dataDir file) false).json)
        i ch' (subtreeDocsC ch) hcoB.2 hjd with ⟨i2, hpush, hok2⟩
    have hb1 : ¬((file == "") = true) := by simp [h1]
    have hb2 : ¬((!meetsPathRequirements (jsSplit '/' file)) = true) := by simp [h2]
    have hfinal : coherentAt [] (.dir i2 ch') = true := by
      simp only [coherentAt, Bool.and_eq_true, decide_eq_true_eq]
      exact ⟨⟨hnd', hco'⟩, indexOk_perm i2 _ _ hok2 hdp'.symm⟩
    unfold storeCoherent storeAdd
    rw [if_neg hb1]
    simp only [hb2, if_false]
    unfold storeAddCore
    simp only [hd, Bool.false_eq_true, if_false, hw, hpush]
    exact hfinal

theorem coherent_remove (st : Store) (file : String)
    (htg : removeTargetOk st.data (jsSplit '/' file) = true)
    (hco : storeCoherent st = true) :
    storeCoherent (storeRemove st file) = true := by
  have hne := jsSplit_ne_nil '/' file
  rcases removeTargetOk_spec _ _ htg with ⟨d, hlk⟩
  rcases hd : st.data with d0 | s | ⟨i, ch⟩
  · rw [hd] at hlk
    cases hp : jsSplit '/' file with
    | nil => exact absurd hp hne
    | cons a r =>
      rw [hp] at hlk
      simp [lookupPath] at hlk
  · rw [hd] at hlk
    cases hp : jsSplit '/' file with
    | nil => exact absurd hp hne
    | cons a r =>
      rw [hp] at hlk
      simp [lookupPath] at hlk
  · rw [hd] at hlk
    have hcoB : coherentAt [] (.dir i ch) = true := by
      unfold storeCoherent at hco
      rw [hd] at hco
      exact hco
    have hcoParts := hcoB
    simp only [coherentAt, Bool.and_eq_true, decide_eq_true_eq] at hcoParts
    have hloc := lookupPath_doc_filename (jsSplit '/' file) [] _ d hcoB hlk
    have hdf : d.filename = file := jsSplit_inj '/' _ _ (by simpa using hloc)
    have huniq := countChildren [] ch file hcoParts.1.2 hcoParts.1.1
    rcases removeWalk_coherent file (jsSplit '/' file) [] i ch d hlk hdf hcoParts.1.1
        hcoParts.1.2 with ⟨ch', hw, hnd', hco', hdp'⟩
    have hok' := indexRemove i (subtreeDocsC ch) (subtreeDocsC ch') d file hcoParts.2 hdf
      hdp' huniq
    unfold storeCoherent storeRemove
    simp only [hd, hw, removeFileFromJsonItemsNode]
    simp only [coherentAt, Bool.and_eq_true, decide_eq_true_eq]
    exact ⟨⟨hnd', hco'⟩, hok'⟩

theorem coherent_ops (fs : String → FileContents) :
    ∀ (ops : List StoreOp) (sc : Store × CacheData),
    storeCoherent sc.1 = true → validOps fs sc ops = true →
    storeCoherent (applyOps fs sc ops).1 = true
  | [], _, hco, _ => hco
  | op :: rest, sc, hco, hv => by
    simp only [validOps, Bool.and_eq_true] at hv
    refine coherent_ops fs rest (applyOp fs sc op) ?_ hv.2
    cases op with
    | add dataDir file =>
      have hv1 := hv.1
      simp only [validOp, Bool.and_eq_true, bne_iff_ne] at hv1
      exact coherent_add fs sc.1 sc.2 dataDir file hv1.1.1 hv1.1.2 hv1.2 hco
    | remove file =>
      have hv1 := hv.1
      simp only [validOp, Bool.and_eq_true] at hv1
      exact coherent_remove sc.1 file hv1.2 hco

/-- Claim C2 (amended): after any sequence of live-tree `add` and `remove`
operations in which every `add` targets a nonempty, reserved-free path whose
final slot is free or holds raw text (and whose proper prefixes hold
directories, nothing, or empty raw text), and every `remove` targets a path
currently holding a parsed document, every directory level of the tree
satisfies the claimed index properties: its `main` sequence holds exactly the
non-variant documents ingested at or below the level, each `variants[v]`
group is nonempty and holds exactly the documents of variant `v` there, every
variant occurring below the level has its group, sibling names are unique,
and each document sits at the path spelled by its `__FILENAME__`. The
unrestricted original claim is refuted separately: a remove aimed at a
never-ingested path corrupts the indexes. -/
theorem claimC2 (fs : String → FileContents) (ops : List StoreOp)
    (h : validOps fs (emptyStore, []) ops = true) :
    storeCoherent (applyOps fs (emptyStore, []) ops).1 = true :=
  coherent_ops fs ops (emptyStore, []) (by decide) h

/-- Witness for claim C2: two ingestions (a main document and an `es` variant)
followed by removal of the variant form a valid sequence, and the resulting
store is coherent. -/
theorem claimC2_witness :
    validOps (fun _ => ⟨"raw", some "payload"⟩) (emptyStore, [])
      [.add "" "x/a.json", .add "" "x/a--es.json", .remove "x/a--es.json"] = true ∧
    storeCoherent (applyOps (fun _ => ⟨"raw", some "payload"⟩) (emptyStore, [])
      [.add "" "x/a.json", .add "" "x/a--es.json", .remove "x/a--es.json"]).1 = true :=
  ⟨by decide, claimC2 (fun _ => ⟨"raw", some "payload"⟩)
    [.add "" "x/a.json", .add "" "x/a--es.json", .remove "x/a--es.json"] (by decide)⟩
